import Mathlib

/-!
clisampler: decimation downsampler and WAV serializer.

A shallow embedding of `src/clisampler.cpp` (class `AudioDownsampler` and `main`).

* Samples (`int16_t`) are integers; a well-formed buffer holds values in `[-32768, 32767]`.
* `uint32_t` / `uint16_t` arithmetic is natural-number arithmetic reduced modulo `2^32` / `2^16`
  at the places where the source narrows.
* `double` is IEEE-754 binary64 restricted to the finite non-negative values the program
  computes with: a value is `m * 2^e`, and every operation rounds the exact result to a
  53-bit significand, ties to even.  The exponent range is not modelled (all values that arise
  from 64-bit sizes and 32-bit rates are normal numbers).
* Files are byte lists; the host is little-endian and `WavHeader` has no padding (its fields are
  naturally aligned), as on the platforms the program is built for.
* The FFmpeg decoding path `convertAudio` is an external collaborator and enters `loadAudioFile`
  and `main` as a parameter.
-/

namespace Clisampler

/-! ## binary64 arithmetic -/

/-- A finite non-negative binary64 value, `m * 2^e`. -/
structure Dbl where
  m : Nat
  e : Int
deriving DecidableEq, Repr

/-- Floor of the binary logarithm, by halving (`fuel` bounds the number of halvings). -/
def log2Fuel : Nat → Nat → Nat
  | 0, _ => 0
  | fuel + 1, n => if n < 2 then 0 else log2Fuel fuel (n / 2) + 1

/-- Floor of the binary logarithm of `n` (and `0` for `n = 0`). -/
def ilog2 (n : Nat) : Nat := log2Fuel n n

/-- The integer nearest to `num / den`, ties to the even integer. -/
def roundNearestEven (num den : Nat) : Nat :=
  let q := num / den
  let r := num % den
  if 2 * r < den then q
  else if den < 2 * r then q + 1
  else q + q % 2

/-- The binary64 value nearest to the exact quotient `a / b` (ties to even).  The quotient is
scaled by `2^s` into `(2^52, 2^54)`; below `2^53` it is rounded on the grid `2^(-s)`, otherwise
on the grid `2^(1-s)`, so the significand always has 53 bits. -/
def roundQuot (a b : Nat) : Dbl :=
  if a = 0 then ⟨0, 0⟩
  else
    let s : Int := 53 - ((ilog2 a : Int) - (ilog2 b : Int))
    let num := a * 2 ^ s.toNat
    let den := b * 2 ^ (-s).toNat
    if num < den * 2 ^ 53 then ⟨roundNearestEven num den, -s⟩
    else ⟨roundNearestEven num (2 * den), 1 - s⟩

namespace Dbl

/-- The rational number a binary64 value stands for. -/
def toRat (x : Dbl) : ℚ := (x.m : ℚ) * (2 : ℚ) ^ x.e

/-- Conversion of an unsigned integer to `double` (`static_cast<double>`, or the implicit
conversion of an integer operand): exact below `2^53`, rounded above. -/
def ofNat (n : Nat) : Dbl := roundQuot n 1

/-- The `double` division `x / y`. -/
def div (x y : Dbl) : Dbl :=
  let d := x.e - y.e
  roundQuot (x.m * 2 ^ d.toNat) (y.m * 2 ^ (-d).toNat)

/-- The `double` multiplication `x * y`. -/
def mul (x y : Dbl) : Dbl :=
  let d := x.e + y.e
  roundQuot (x.m * y.m * 2 ^ d.toNat) (2 ^ (-d).toNat)

/-- Truncation of a non-negative `double` to `size_t` (`static_cast<size_t>`). -/
def toSize (x : Dbl) : Nat :=
  x.m * 2 ^ x.e.toNat / 2 ^ (-x.e).toNat

end Dbl

/-! ## The object state -/

/-- The data members of `class AudioDownsampler`. -/
structure AudioDownsampler where
  audioData : List Int
  originalSampleRate : Nat
  channels : Nat
  formatName : String

/-- The constructor `AudioDownsampler()`. -/
def AudioDownsampler.new : AudioDownsampler := ⟨[], 0, 0, ""⟩

/-- Every sample fits `int16_t`. -/
def InRange16 (data : List Int) : Prop := ∀ x ∈ data, -32768 ≤ x ∧ x ≤ 32767

instance (data : List Int) : Decidable (InRange16 data) := by
  unfold InRange16
  infer_instance

/-! ## `downsample` -/

/-- Line 331: `double ratio = static_cast<double>(originalSampleRate) / targetSampleRate`. -/
def ratioOf (originalSampleRate targetSampleRate : Nat) : Dbl :=
  Dbl.div (Dbl.ofNat originalSampleRate) (Dbl.ofNat targetSampleRate)

/-- Line 332: `size_t newSize = static_cast<size_t>(audioData.size() / ratio)`. -/
def newSizeOf (size originalSampleRate targetSampleRate : Nat) : Nat :=
  Dbl.toSize (Dbl.div (Dbl.ofNat size) (ratioOf originalSampleRate targetSampleRate))

/-- Line 350: `size_t srcIndex = static_cast<size_t>(i * ratio)`. -/
def srcIndexOf (i originalSampleRate targetSampleRate : Nat) : Nat :=
  Dbl.toSize (Dbl.mul (Dbl.ofNat i) (ratioOf originalSampleRate targetSampleRate))

/-- One iteration of the copy loop (lines 350-353) on the output vector built so far. -/
def copyStep (audioData : List Int) (originalSampleRate targetSampleRate : Nat)
    (downsampled : List Int) (i : Nat) : List Int :=
  let srcIndex := srcIndexOf i originalSampleRate targetSampleRate
  if srcIndex < audioData.length then downsampled.set i (audioData.getD srcIndex 0)
  else downsampled

/-- The method `downsample(targetSampleRate)`, lines 319-358.  The returned pair is the result
vector and the object state after the call. -/
def downsample (self : AudioDownsampler) (targetSampleRate : Nat) :
    List Int × AudioDownsampler :=
  if self.audioData.isEmpty then ([], self)
  else if targetSampleRate = 0 ∨ targetSampleRate ≥ self.originalSampleRate then
    (self.audioData, self)
  else
    let newSize := newSizeOf self.audioData.length self.originalSampleRate targetSampleRate
    if newSize = 0 then ([], self)
    else
      let downsampled : List Int := List.replicate newSize 0
      ((List.range newSize).foldl
        (copyStep self.audioData self.originalSampleRate targetSampleRate) downsampled, self)

/-! ## Files -/

/-- The part of the file system the program touches: the bytes of each readable file, and
whether a path can be opened for writing. -/
structure FileSystem where
  content : String → Option (List Nat)
  canCreate : String → Bool

/-- Opening `path` with `std::ofstream` and writing `bytes`: the file then holds exactly them. -/
def FileSystem.write (fs : FileSystem) (path : String) (bytes : List Nat) : FileSystem :=
  { fs with content := fun p => if p = path then some bytes else fs.content p }

/-- Little-endian bytes of a 16-bit unsigned value. -/
def le16 (v : Nat) : List Nat := [v % 256, v / 256 % 256]

/-- Little-endian bytes of a 32-bit unsigned value. -/
def le32 (v : Nat) : List Nat := [v % 256, v / 256 % 256, v / 65536 % 256, v / 16777216 % 256]

/-- The value of (up to) four little-endian bytes. -/
def fromLE (bytes : List Nat) : Nat :=
  bytes.foldr (fun b acc => b + 256 * acc) 0

/-- The two bytes of an `int16_t` sample in memory (two's complement, little-endian). -/
def sampleBytes (x : Int) : List Nat := le16 (x % 65536).toNat

/-- The memory image of a sample vector. -/
def samplesBytes (data : List Int) : List Nat := data.flatMap sampleBytes

/-- The `int16_t` stored in two bytes. -/
def sampleOfBytes (lo hi : Nat) : Int :=
  let u := lo + 256 * hi
  if u < 32768 then (u : Int) else (u : Int) - 65536

/-- The sample vector whose memory image is `bytes` (a trailing odd byte is not a sample). -/
def bytesSamples : List Nat → List Int
  | lo :: hi :: rest => sampleOfBytes lo hi :: bytesSamples rest
  | _ => []

/-- The four bytes of a chunk tag. -/
def tagBytes (tag : List Char) : List Nat := tag.map Char.toNat

/-! ## `saveAsWav` -/

/-- The local `struct WavHeader` of `saveAsWav` with its default member initializers. -/
structure WavHeader where
  riff : List Char := ['R', 'I', 'F', 'F']
  chunkSize : Nat
  wave : List Char := ['W', 'A', 'V', 'E']
  fmt : List Char := ['f', 'm', 't', ' ']
  fmtChunkSize : Nat := 16
  audioFormat : Nat := 1
  numChannels : Nat := 2
  sampleRate : Nat
  byteRate : Nat
  blockAlign : Nat
  bitsPerSample : Nat := 16
  data : List Char := ['d', 'a', 't', 'a']
  dataSize : Nat

/-- The 44 bytes of a `WavHeader` object, field after field. -/
def WavHeader.bytes (h : WavHeader) : List Nat :=
  tagBytes h.riff ++ le32 h.chunkSize ++ tagBytes h.wave ++ tagBytes h.fmt ++
    le32 h.fmtChunkSize ++ le16 h.audioFormat ++ le16 h.numChannels ++ le32 h.sampleRate ++
    le32 h.byteRate ++ le16 h.blockAlign ++ le16 h.bitsPerSample ++ tagBytes h.data ++
    le32 h.dataSize

/-- Lines 386-392: the header `saveAsWav` fills in for `data` and `sampleRate`. -/
def wavHeaderOf (data : List Int) (sampleRate : Nat) : WavHeader :=
  let numChannels := 2
  let blockAlign := numChannels * 2 % 2 ^ 16
  let byteRate := sampleRate * blockAlign % 2 ^ 32
  let dataSize := data.length * 2 % 2 ^ 32
  let chunkSize := (36 + dataSize) % 2 ^ 32
  { chunkSize := chunkSize, numChannels := numChannels, sampleRate := sampleRate % 2 ^ 32,
    byteRate := byteRate, blockAlign := blockAlign, dataSize := dataSize }

/-- Lines 400-401: the bytes the two `file.write` calls emit. -/
def wavFileBytes (data : List Int) (sampleRate : Nat) : List Nat :=
  let header := wavHeaderOf data sampleRate
  header.bytes ++ (samplesBytes data).take header.dataSize

/-- The method `saveAsWav(filename, data, sampleRate)`, lines 360-411: the returned flag and the
file system after the call. -/
def saveAsWav (fs : FileSystem) (filename : String) (data : List Int) (sampleRate : Nat) :
    Bool × FileSystem :=
  if data.isEmpty then (false, fs)
  else if !fs.canCreate filename then (false, fs)
  else (true, fs.write filename (wavFileBytes data sampleRate))

/-! ## `loadWavFileFallback` -/

/-- An input file stream: the file bytes, the read position and whether no read has failed. -/
structure IStream where
  bytes : List Nat
  pos : Nat
  good : Bool

/-- The call `file.read(buf, buf.size)`: as many bytes as the file still has are stored at the
front of the buffer; a short read puts the stream in the failed state, in which reads and seeks
do nothing. -/
def IStream.read (s : IStream) (buf : List Nat) : List Nat × IStream :=
  if s.good then
    let got := (s.bytes.drop s.pos).take buf.length
    (got ++ buf.drop got.length,
      { s with pos := s.pos + got.length, good := got.length == buf.length })
  else (buf, s)

/-- The call `file.seekg(off, std::ios::beg)`. -/
def IStream.seekg (s : IStream) (off : Nat) : IStream :=
  if s.good then { s with pos := off } else s

/-- The C string held in a character buffer: the bytes before the first zero byte. -/
def cstr (buf : List Nat) : List Nat := buf.takeWhile (fun b => b != 0)

/-- The call `audioData.resize(n)`: truncation, or extension with zero samples. -/
def resize (v : List Int) (n : Nat) : List Int := v.take n ++ List.replicate (n - v.length) 0

/-- The method `loadWavFileFallback(filename)`, lines 267-317: the returned flag and the object
state after the call.  `uninit` is the indeterminate initial content of the local `dataSize`
(it shows only when the file ends inside that field).  The local `fileSize` is never used, so
its initial content is taken as zero.  When `dataSize` is odd the source reads one byte more
than the resized vector holds; that byte is not part of `audioData`. -/
def loadWavFileFallback (self : AudioDownsampler) (fs : FileSystem) (filename : String)
    (uninit : Nat) : Bool × AudioDownsampler :=
  match fs.content filename with
  | none => (false, self)
  | some fileBytes =>
    let file : IStream := ⟨fileBytes, 0, true⟩
    let r1 := file.read [0, 0, 0, 0]
    let riff := r1.1 ++ [0]
    let r2 := r1.2.read [0, 0, 0, 0]
    let r3 := r2.2.read [0, 0, 0, 0]
    let wave := r3.1 ++ [0]
    if cstr riff ≠ tagBytes ['R', 'I', 'F', 'F'] ∨ cstr wave ≠ tagBytes ['W', 'A', 'V', 'E'] then
      (false, self)
    else
      let file := r3.2.seekg 36
      let r4 := file.read [0, 0, 0, 0]
      let dataId := r4.1 ++ [0]
      let r5 := r4.2.read (le32 uninit)
      let dataSize := fromLE r5.1
      if cstr dataId ≠ tagBytes ['d', 'a', 't', 'a'] then (false, self)
      else
        let resized := resize self.audioData (dataSize / 2)
        let r6 := r5.2.read (samplesBytes resized ++ List.replicate (dataSize % 2) 0)
        let audioData := bytesSamples (r6.1.take (2 * (dataSize / 2)))
        (!audioData.isEmpty,
          { self with channels := 2, originalSampleRate := 44100, audioData := audioData })

/-! ## `loadAudioFile` and `main` -/

/-- The method `loadAudioFile(inputFile)`, lines 251-264.  `convertAudio` stands for the FFmpeg
decoding path: it returns its flag and the object state it leaves. -/
def loadAudioFile (convertAudio : AudioDownsampler → String → Bool × AudioDownsampler)
    (self : AudioDownsampler) (fs : FileSystem) (inputFile : String) (uninit : Nat) :
    Bool × AudioDownsampler :=
  let c := convertAudio self inputFile
  if c.1 then (true, c.2)
  else loadWavFileFallback c.2 fs inputFile uninit

/-- Lines 446-460 of `main`: everything after a successful load.  The result is the exit code
and the file system at exit. -/
def mainAfterLoad (downsampler : AudioDownsampler) (targetRate : Nat) (outputFile : String)
    (fs : FileSystem) : Nat × FileSystem :=
  let downsampled := (downsample downsampler targetRate).1
  if downsampled.isEmpty then (1, fs)
  else
    let saved := saveAsWav fs outputFile downsampled targetRate
    if !saved.1 then (1, saved.2)
    else (0, saved.2)

/-- The function `main`, lines 424-461, for an argument vector `argv` (program name first).
`stoi` is `std::stoi` (arguments on which it throws are outside the model); its result is
converted to `uint32_t`. -/
def main (convertAudio : AudioDownsampler → String → Bool × AudioDownsampler)
    (stoi : String → Int) (argv : List String) (fs : FileSystem) (uninit : Nat) :
    Nat × FileSystem :=
  if argv.length < 3 then (1, fs)
  else
    let inputFile := argv.getD 1 ""
    let targetRate := (stoi (argv.getD 2 "") % 2 ^ 32).toNat
    let outputFile := if argv.length ≥ 4 then argv.getD 3 "" else "output.wav"
    let loaded := loadAudioFile convertAudio AudioDownsampler.new fs inputFile uninit
    if !loaded.1 then (1, fs)
    else mainAfterLoad loaded.2 targetRate outputFile fs

set_option maxRecDepth 8000

/-! ## Rounding to the nearest 53-bit value -/

theorem log2Fuel_spec : ∀ (fuel n : Nat), n ≤ fuel → 0 < n →
    2 ^ log2Fuel fuel n ≤ n ∧ n < 2 ^ (log2Fuel fuel n + 1) := by
  intro fuel
  induction fuel with
  | zero => intro n h1 h2; omega
  | succ f ih =>
    intro n h1 h2
    unfold log2Fuel
    by_cases h : n < 2
    · simp only [h, if_true]
      constructor
      · simpa using h2
      · simpa using h
    · simp only [h, if_false]
      have hpos : 0 < n / 2 := Nat.div_pos (by omega) (by norm_num)
      have hle : n / 2 ≤ f := by omega
      obtain ⟨h3, h4⟩ := ih (n / 2) hle hpos
      constructor
      · rw [pow_succ]; omega
      · rw [pow_succ]; omega

theorem ilog2_spec (n : Nat) (h : 0 < n) : 2 ^ ilog2 n ≤ n ∧ n < 2 ^ (ilog2 n + 1) :=
  log2Fuel_spec n n le_rfl h

theorem rne_ge_of_le (num den K : Nat) (hd : 0 < den) (h : K * den ≤ num) :
    K ≤ roundNearestEven num den := by
  have hq : K ≤ num / den := (Nat.le_div_iff_mul_le hd).2 h
  unfold roundNearestEven
  simp only
  split_ifs <;> omega

theorem rne_le_of_le (num den K : Nat) (hd : 0 < den) (h : num ≤ K * den) :
    roundNearestEven num den ≤ K := by
  have hq : num / den ≤ K := by
    calc num / den ≤ K * den / den := Nat.div_le_div_right h
      _ = K := Nat.mul_div_cancel K hd
  have hmod := Nat.div_add_mod num den
  have key : 0 < num % den → num / den + 1 ≤ K := by
    intro hr
    by_contra hc
    have hK : K = num / den := by omega
    rw [hK] at h
    have : den * (num / den) = num / den * den := Nat.mul_comm _ _
    omega
  unfold roundNearestEven
  simp only
  split_ifs with h1 h2
  · exact hq
  · exact key (by omega)
  · have := key (by omega)
    omega

theorem rne_two_mul_le (num den : Nat) (hd : 0 < den) :
    2 * (roundNearestEven num den * den) ≤ 2 * num + den := by
  have hmod := Nat.div_add_mod num den
  have hlt := Nat.mod_lt num hd
  have hc : den * (num / den) = num / den * den := Nat.mul_comm _ _
  unfold roundNearestEven
  simp only
  split_ifs with h1 h2
  · omega
  · rw [Nat.add_mul]; omega
  · have : num / den % 2 ≤ 1 := by omega
    have h3 : num / den % 2 * den ≤ den := by
      calc num / den % 2 * den ≤ 1 * den := Nat.mul_le_mul_right _ this
        _ = den := Nat.one_mul _
    rw [Nat.add_mul]; omega

theorem rne_two_mul_ge (num den : Nat) (hd : 0 < den) :
    2 * num ≤ 2 * (roundNearestEven num den * den) + den := by
  have hmod := Nat.div_add_mod num den
  have hlt := Nat.mod_lt num hd
  have hc : den * (num / den) = num / den * den := Nat.mul_comm _ _
  unfold roundNearestEven
  simp only
  split_ifs with h1 h2
  · omega
  · rw [Nat.add_mul]; omega
  · rw [Nat.add_mul]; omega

theorem two_zpow_split (s : ℤ) :
    (2 : ℚ) ^ s.toNat / (2 : ℚ) ^ (-s).toNat = (2 : ℚ) ^ s := by
  rcases le_total 0 s with h | h
  · have h1 : (-s).toNat = 0 := by omega
    have h2 : ((s.toNat : ℕ) : ℤ) = s := Int.toNat_of_nonneg h
    rw [h1, pow_zero, div_one, ← zpow_natCast, h2]
  · have h1 : s.toNat = 0 := by omega
    have h2 : (((-s).toNat : ℕ) : ℤ) = -s := Int.toNat_of_nonneg (by omega)
    rw [h1, pow_zero, one_div, ← zpow_natCast, h2, zpow_neg, inv_inv]

theorem roundQuot_struct (a b : Nat) (ha : 0 < a) (hb : 0 < b) :
    ∃ (N D : Nat) (g : ℤ), 0 < D ∧ roundQuot a b = ⟨roundNearestEven N D, g⟩ ∧
      (N : ℚ) / D * (2 : ℚ) ^ g = (a : ℚ) / b ∧ 2 ^ 52 * D ≤ N ∧ N < 2 ^ 53 * D := by
  obtain ⟨ha1, ha2⟩ := ilog2_spec a ha
  obtain ⟨hb1, hb2⟩ := ilog2_spec b hb
  set la := ilog2 a with hla
  set lb := ilog2 b with hlb
  set s : ℤ := 53 - ((la : ℤ) - (lb : ℤ)) with hs
  set num := a * 2 ^ s.toNat with hnum
  set den := b * 2 ^ (-s).toNat with hden
  have hrq : roundQuot a b = if num < den * 2 ^ 53 then ⟨roundNearestEven num den, -s⟩
      else ⟨roundNearestEven num (2 * den), 1 - s⟩ := by
    unfold roundQuot
    simp only [Nat.ne_of_gt ha, if_false]
  clear_value s num den
  have hdpos : 0 < den := by
    rw [hden]
    exact Nat.mul_pos hb (by positivity)
  have hA : (0 : ℚ) < a := by exact_mod_cast ha
  have hB : (0 : ℚ) < b := by exact_mod_cast hb
  have hD : (0 : ℚ) < den := by exact_mod_cast hdpos
  have hquot : (num : ℚ) / den = (a : ℚ) / b * (2 : ℚ) ^ s := by
    rw [hnum, hden]
    push_cast
    rw [← two_zpow_split s]
    field_simp
  have hpow : (2 : ℚ) ^ s = 2 ^ 53 * 2 ^ lb / 2 ^ la := by
    have : s = (53 : ℤ) + (lb : ℤ) - (la : ℤ) := by omega
    rw [this, zpow_sub₀ (by norm_num), zpow_add₀ (by norm_num), zpow_natCast, zpow_natCast]
    norm_num
  have ha1q : (2 : ℚ) ^ la ≤ a := by exact_mod_cast ha1
  have ha2q : (a : ℚ) < 2 ^ (la + 1) := by exact_mod_cast ha2
  have hb1q : (2 : ℚ) ^ lb ≤ b := by exact_mod_cast hb1
  have hb2q : (b : ℚ) < 2 ^ (lb + 1) := by exact_mod_cast hb2
  have hPa : (0 : ℚ) < 2 ^ la := by positivity
  have hPb : (0 : ℚ) < 2 ^ lb := by positivity
  have hrew : (a : ℚ) / b * (2 ^ 53 * 2 ^ lb / 2 ^ la)
      = ((a : ℚ) / 2 ^ la) * ((2 : ℚ) ^ lb / b) * 2 ^ 53 := by
    field_simp
    ring
  have hu1 : 1 ≤ (a : ℚ) / 2 ^ la := (one_le_div hPa).2 ha1q
  have hu2 : (a : ℚ) / 2 ^ la < 2 := by
    rw [div_lt_iff₀ hPa]
    calc (a : ℚ) < 2 ^ (la + 1) := ha2q
      _ = 2 * 2 ^ la := by ring
  have hw1 : 1 / 2 < (2 : ℚ) ^ lb / b := by
    rw [div_lt_div_iff₀ (by norm_num) hB]
    calc 1 * (b : ℚ) = b := one_mul _
      _ < 2 ^ (lb + 1) := hb2q
      _ = 2 ^ lb * 2 := by ring
  have hw2 : (2 : ℚ) ^ lb / b ≤ 1 := (div_le_one hB).2 hb1q
  have hw0 : 0 < (2 : ℚ) ^ lb / b := by positivity
  have hlo : (2 : ℚ) ^ 52 < (num : ℚ) / den := by
    rw [hquot, hpow, hrew]
    have h1 : 1 / 2 < (a : ℚ) / 2 ^ la * ((2 : ℚ) ^ lb / b) := by nlinarith
    have h2 : (2 : ℚ) ^ 52 = 1 / 2 * 2 ^ 53 := by norm_num
    rw [h2]
    exact mul_lt_mul_of_pos_right h1 (by norm_num)
  have hhi : (num : ℚ) / den < 2 ^ 54 := by
    rw [hquot, hpow, hrew]
    have h1 : (a : ℚ) / 2 ^ la * ((2 : ℚ) ^ lb / b) < 2 := by nlinarith
    have h2 : (2 : ℚ) ^ 54 = 2 * 2 ^ 53 := by norm_num
    rw [h2]
    exact mul_lt_mul_of_pos_right h1 (by norm_num)
  have hloN : 2 ^ 52 * den < num := by
    have := (lt_div_iff₀ hD).1 hlo
    exact_mod_cast this
  have hhiN : num < 2 ^ 54 * den := by
    have := (div_lt_iff₀ hD).1 hhi
    exact_mod_cast this
  have hsne : (2 : ℚ) ^ s ≠ 0 := zpow_ne_zero _ (by norm_num)
  by_cases hbr : num < den * 2 ^ 53
  · refine ⟨num, den, -s, hdpos, ?_, ?_, le_of_lt hloN, by rw [Nat.mul_comm]; exact hbr⟩
    · rw [hrq, if_pos hbr]
    · rw [hquot, zpow_neg]
      field_simp
      ring
  · refine ⟨num, 2 * den, 1 - s, by omega, ?_, ?_, by omega, by omega⟩
    · rw [hrq, if_neg hbr]
    · have e : ((num : ℚ)) / ((2 * den : ℕ) : ℚ) = (num : ℚ) / den / 2 := by
        push_cast
        rw [div_div, mul_comm]
      rw [e, hquot, zpow_sub₀ (by norm_num), zpow_one]
      field_simp
      ring

theorem toRat_roundQuot_zero (b : Nat) : (roundQuot 0 b).toRat = 0 := by
  simp [roundQuot, Dbl.toRat]

theorem roundQuot_err (a b : Nat) (hb : 0 < b) :
    |(roundQuot a b).toRat - (a : ℚ) / b| ≤ (a : ℚ) / b / 2 ^ 53 := by
  rcases Nat.eq_zero_or_pos a with ha | ha
  · subst ha
    simp [toRat_roundQuot_zero]
  obtain ⟨N, D, g, hD, hrq, hval, hlo, _⟩ := roundQuot_struct a b ha hb
  have hDq : (0 : ℚ) < D := by exact_mod_cast hD
  have hg : (0 : ℚ) < (2 : ℚ) ^ g := zpow_pos (by norm_num) g
  have h1 : (2 : ℚ) * (roundNearestEven N D * D) ≤ 2 * N + D := by
    exact_mod_cast rne_two_mul_le N D hD
  have h2 : (2 : ℚ) * N ≤ 2 * (roundNearestEven N D * D) + D := by
    exact_mod_cast rne_two_mul_ge N D hD
  have hloq : (2 : ℚ) ^ 52 * D ≤ N := by exact_mod_cast hlo
  have hND : (N : ℚ) = (N : ℚ) / D * D := by field_simp
  set y : ℚ := (N : ℚ) / D with hy
  set m : ℚ := (roundNearestEven N D : ℚ) with hm
  have hy52 : (2 : ℚ) ^ 52 ≤ y := by
    rw [hy, le_div_iff₀ hDq]
    exact hloq
  have hm1 : m ≤ y + 1 / 2 := by
    rw [hND] at h1
    have : (2 : ℚ) * (m * D) ≤ (2 * y + 1) * D := by linarith
    have := le_of_mul_le_mul_right (by linarith : (2 * m) * (D : ℚ) ≤ (2 * y + 1) * D) hDq
    linarith
  have hm2 : y - 1 / 2 ≤ m := by
    rw [hND] at h2
    have := le_of_mul_le_mul_right (by linarith : (2 * y - 1) * (D : ℚ) ≤ (2 * m) * D) hDq
    linarith
  have hv : (roundQuot a b).toRat = m * (2 : ℚ) ^ g := by
    rw [hrq]
    rfl
  have hhalf : 1 / 2 ≤ y / 2 ^ 53 := by
    rw [le_div_iff₀ (by norm_num)]
    linarith
  have key : |m - y| ≤ y / 2 ^ 53 := by
    rw [abs_le]
    constructor <;> linarith
  have e : y * (2 : ℚ) ^ g / 2 ^ 53 = y / 2 ^ 53 * (2 : ℚ) ^ g := by ring
  rw [hv, ← hval, ← sub_mul, abs_mul, abs_of_pos hg, e]
  exact mul_le_mul_of_nonneg_right key hg.le

theorem two_zpow_nonpos_mul (g : ℤ) (hg : g ≤ 0) (K : Nat) :
    ((K * 2 ^ (-g).toNat : ℕ) : ℚ) * (2 : ℚ) ^ g = K := by
  have h2 : (((-g).toNat : ℕ) : ℤ) = -g := Int.toNat_of_nonneg (by omega)
  push_cast
  rw [← zpow_natCast, h2, mul_assoc, ← zpow_add₀ (by norm_num)]
  simp

theorem roundQuot_le_nat (a b K : Nat) (hb : 0 < b) (hK : K < 2 ^ 53)
    (h : (a : ℚ) / b ≤ K) : (roundQuot a b).toRat ≤ K := by
  rcases Nat.eq_zero_or_pos a with ha | ha
  · subst ha
    rw [toRat_roundQuot_zero]
    exact Nat.cast_nonneg K
  obtain ⟨N, D, g, hD, hrq, hval, hlo, _⟩ := roundQuot_struct a b ha hb
  have hDq : (0 : ℚ) < D := by exact_mod_cast hD
  have hgpos : (0 : ℚ) < (2 : ℚ) ^ g := zpow_pos (by norm_num) g
  have hloq : (2 : ℚ) ^ 52 * D ≤ N := by exact_mod_cast hlo
  have hy52 : (2 : ℚ) ^ 52 ≤ (N : ℚ) / D := by
    rw [le_div_iff₀ hDq]
    exact hloq
  have hKq : (K : ℚ) < 2 ^ 53 := by exact_mod_cast hK
  have hv : (roundQuot a b).toRat = (roundNearestEven N D : ℚ) * (2 : ℚ) ^ g := by
    rw [hrq]
    rfl
  rcases le_or_lt g 0 with hg | hg
  · have hK' := two_zpow_nonpos_mul g hg K
    set K' := K * 2 ^ (-g).toNat with hK'def
    have h1 : (N : ℚ) / D * (2 : ℚ) ^ g ≤ (K' : ℚ) * (2 : ℚ) ^ g := by
      rw [hval, hK']
      exact h
    have h2 : (N : ℚ) / D ≤ K' := le_of_mul_le_mul_right h1 hgpos
    have h3 : N ≤ K' * D := by
      have := (div_le_iff₀ hDq).1 h2
      exact_mod_cast this
    have h4 : roundNearestEven N D ≤ K' := rne_le_of_le N D K' hD h3
    rw [hv, ← hK']
    apply mul_le_mul_of_nonneg_right _ hgpos.le
    exact_mod_cast h4
  · exfalso
    have h2g : (2 : ℚ) ≤ (2 : ℚ) ^ g := by
      have : (2 : ℚ) ^ (1 : ℤ) ≤ (2 : ℚ) ^ g := zpow_le_zpow_right₀ (by norm_num) (by omega)
      simpa using this
    have : (2 : ℚ) ^ 53 ≤ (N : ℚ) / D * (2 : ℚ) ^ g := by
      calc (2 : ℚ) ^ 53 = 2 ^ 52 * 2 := by norm_num
        _ ≤ (N : ℚ) / D * (2 : ℚ) ^ g := mul_le_mul hy52 h2g (by norm_num) (by linarith)
    rw [hval] at this
    linarith

theorem roundQuot_ge_nat (a b K : Nat) (hb : 0 < b) (hK : K < 2 ^ 53)
    (h : (K : ℚ) ≤ (a : ℚ) / b) : (K : ℚ) ≤ (roundQuot a b).toRat := by
  rcases Nat.eq_zero_or_pos a with ha | ha
  · subst ha
    rw [toRat_roundQuot_zero]
    simpa using h
  obtain ⟨N, D, g, hD, hrq, hval, hlo, _⟩ := roundQuot_struct a b ha hb
  have hDq : (0 : ℚ) < D := by exact_mod_cast hD
  have hgpos : (0 : ℚ) < (2 : ℚ) ^ g := zpow_pos (by norm_num) g
  have hKq : (K : ℚ) < 2 ^ 53 := by exact_mod_cast hK
  have hv : (roundQuot a b).toRat = (roundNearestEven N D : ℚ) * (2 : ℚ) ^ g := by
    rw [hrq]
    rfl
  rcases le_or_lt g 0 with hg | hg
  · have hK' := two_zpow_nonpos_mul g hg K
    set K' := K * 2 ^ (-g).toNat with hK'def
    have h1 : (K' : ℚ) * (2 : ℚ) ^ g ≤ (N : ℚ) / D * (2 : ℚ) ^ g := by
      rw [hval, hK']
      exact h
    have h2 : (K' : ℚ) ≤ (N : ℚ) / D := le_of_mul_le_mul_right h1 hgpos
    have h3 : K' * D ≤ N := by
      have := (le_div_iff₀ hDq).1 h2
      exact_mod_cast this
    have h4 : K' ≤ roundNearestEven N D := rne_ge_of_le N D K' hD h3
    rw [hv, ← hK']
    apply mul_le_mul_of_nonneg_right _ hgpos.le
    exact_mod_cast h4
  · have h2g : (2 : ℚ) ≤ (2 : ℚ) ^ g := by
      have : (2 : ℚ) ^ (1 : ℤ) ≤ (2 : ℚ) ^ g := zpow_le_zpow_right₀ (by norm_num) (by omega)
      simpa using this
    have h4 : 2 ^ 52 ≤ roundNearestEven N D := rne_ge_of_le N D (2 ^ 52) hD hlo
    have h4q : (2 : ℚ) ^ 52 ≤ (roundNearestEven N D : ℚ) := by exact_mod_cast h4
    rw [hv]
    calc (K : ℚ) ≤ 2 ^ 52 * 2 := by norm_num at hKq ⊢; linarith
      _ ≤ (roundNearestEven N D : ℚ) * (2 : ℚ) ^ g := mul_le_mul h4q h2g (by norm_num) (by linarith)

/-! ## The binary64 operations and the rationals they stand for -/

theorem Dbl.m_pos_of_toRat_pos (x : Dbl) (h : 0 < x.toRat) : 0 < x.m := by
  rcases Nat.eq_zero_or_pos x.m with h0 | h0
  · simp [Dbl.toRat, h0] at h
  · exact h0

theorem Dbl.toRat_nonneg (x : Dbl) : 0 ≤ x.toRat := by
  unfold Dbl.toRat
  positivity

theorem Dbl.div_quot (x y : Dbl) (hy : 0 < y.m) :
    ((x.m * 2 ^ (x.e - y.e).toNat : ℕ) : ℚ) / ((y.m * 2 ^ (-(x.e - y.e)).toNat : ℕ) : ℚ)
      = x.toRat / y.toRat := by
  have hyq : (0 : ℚ) < y.m := by exact_mod_cast hy
  have h1 : ((x.m * 2 ^ (x.e - y.e).toNat : ℕ) : ℚ) / ((y.m * 2 ^ (-(x.e - y.e)).toNat : ℕ) : ℚ)
      = (x.m : ℚ) / y.m * ((2 : ℚ) ^ (x.e - y.e).toNat / (2 : ℚ) ^ (-(x.e - y.e)).toNat) := by
    push_cast
    field_simp
  rw [h1, two_zpow_split, zpow_sub₀ (by norm_num)]
  unfold Dbl.toRat
  have : (2 : ℚ) ^ y.e ≠ 0 := zpow_ne_zero _ (by norm_num)
  field_simp

theorem Dbl.mul_quot (x y : Dbl) :
    ((x.m * y.m * 2 ^ (x.e + y.e).toNat : ℕ) : ℚ) / ((2 ^ (-(x.e + y.e)).toNat : ℕ) : ℚ)
      = x.toRat * y.toRat := by
  have h1 : ((x.m * y.m * 2 ^ (x.e + y.e).toNat : ℕ) : ℚ) / ((2 ^ (-(x.e + y.e)).toNat : ℕ) : ℚ)
      = (x.m : ℚ) * y.m * ((2 : ℚ) ^ (x.e + y.e).toNat / (2 : ℚ) ^ (-(x.e + y.e)).toNat) := by
    push_cast
    field_simp
  rw [h1, two_zpow_split, zpow_add₀ (by norm_num)]
  unfold Dbl.toRat
  ring

theorem Dbl.div_den_pos (x y : Dbl) (hy : 0 < y.m) : 0 < y.m * 2 ^ (-(x.e - y.e)).toNat :=
  Nat.mul_pos hy (by positivity)

theorem Dbl.div_err (x y : Dbl) (hy : 0 < y.m) :
    |(Dbl.div x y).toRat - x.toRat / y.toRat| ≤ x.toRat / y.toRat / 2 ^ 53 := by
  have := roundQuot_err (x.m * 2 ^ (x.e - y.e).toNat) (y.m * 2 ^ (-(x.e - y.e)).toNat)
    (Dbl.div_den_pos x y hy)
  rw [Dbl.div_quot x y hy] at this
  exact this

theorem Dbl.div_le_nat (x y : Dbl) (K : Nat) (hy : 0 < y.m) (hK : K < 2 ^ 53)
    (h : x.toRat / y.toRat ≤ K) : (Dbl.div x y).toRat ≤ K := by
  apply roundQuot_le_nat _ _ K (Dbl.div_den_pos x y hy) hK
  rw [Dbl.div_quot x y hy]
  exact h

theorem Dbl.div_ge_nat (x y : Dbl) (K : Nat) (hy : 0 < y.m) (hK : K < 2 ^ 53)
    (h : (K : ℚ) ≤ x.toRat / y.toRat) : (K : ℚ) ≤ (Dbl.div x y).toRat := by
  apply roundQuot_ge_nat _ _ K (Dbl.div_den_pos x y hy) hK
  rw [Dbl.div_quot x y hy]
  exact h

theorem Dbl.mul_err (x y : Dbl) :
    |(Dbl.mul x y).toRat - x.toRat * y.toRat| ≤ x.toRat * y.toRat / 2 ^ 53 := by
  have := roundQuot_err (x.m * y.m * 2 ^ (x.e + y.e).toNat) (2 ^ (-(x.e + y.e)).toNat)
    (by positivity)
  rw [Dbl.mul_quot x y] at this
  exact this

theorem Dbl.mul_le_nat (x y : Dbl) (K : Nat) (hK : K < 2 ^ 53)
    (h : x.toRat * y.toRat ≤ K) : (Dbl.mul x y).toRat ≤ K := by
  apply roundQuot_le_nat _ _ K (by positivity) hK
  rw [Dbl.mul_quot x y]
  exact h

theorem Dbl.mul_ge_nat (x y : Dbl) (K : Nat) (hK : K < 2 ^ 53)
    (h : (K : ℚ) ≤ x.toRat * y.toRat) : (K : ℚ) ≤ (Dbl.mul x y).toRat := by
  apply roundQuot_ge_nat _ _ K (by positivity) hK
  rw [Dbl.mul_quot x y]
  exact h

theorem Dbl.toRat_ofNat (n : Nat) (h : n < 2 ^ 53) : (Dbl.ofNat n).toRat = n := by
  apply le_antisymm
  · exact roundQuot_le_nat n 1 n (by norm_num) h (by simp)
  · exact roundQuot_ge_nat n 1 n (by norm_num) h (by simp)

theorem Dbl.toSize_eq_floor (x : Dbl) : x.toSize = ⌊x.toRat⌋₊ := by
  have h : x.toRat = ((x.m * 2 ^ x.e.toNat : ℕ) : ℚ) / ((2 ^ (-x.e).toNat : ℕ) : ℚ) := by
    unfold Dbl.toRat
    push_cast
    rw [mul_div_assoc, two_zpow_split]
  rw [h, Nat.floor_div_eq_div]
  rfl

/-! ## The ratio, the new size and the source index -/

theorem ratioOf_quot (r t : Nat) (hr : r < 2 ^ 53) (ht : t < 2 ^ 53) (ht0 : 0 < t) :
    0 < (Dbl.ofNat t).m ∧ (Dbl.ofNat r).toRat / (Dbl.ofNat t).toRat = (r : ℚ) / t := by
  constructor
  · apply Dbl.m_pos_of_toRat_pos
    rw [Dbl.toRat_ofNat t ht]
    exact_mod_cast ht0
  · rw [Dbl.toRat_ofNat r hr, Dbl.toRat_ofNat t ht]

theorem ratioOf_err (r t : Nat) (hr : r < 2 ^ 53) (ht : t < 2 ^ 53) (ht0 : 0 < t) :
    |(ratioOf r t).toRat - (r : ℚ) / t| ≤ (r : ℚ) / t / 2 ^ 53 := by
  obtain ⟨h1, h2⟩ := ratioOf_quot r t hr ht ht0
  have := Dbl.div_err (Dbl.ofNat r) (Dbl.ofNat t) h1
  rw [h2] at this
  exact this

theorem ratioOf_le_nat (r t K : Nat) (hr : r < 2 ^ 53) (ht : t < 2 ^ 53) (ht0 : 0 < t)
    (hK : K < 2 ^ 53) (h : (r : ℚ) / t ≤ K) : (ratioOf r t).toRat ≤ K := by
  obtain ⟨h1, h2⟩ := ratioOf_quot r t hr ht ht0
  apply Dbl.div_le_nat _ _ K h1 hK
  rw [h2]
  exact h

theorem ratioOf_ge_nat (r t K : Nat) (hr : r < 2 ^ 53) (ht : t < 2 ^ 53) (ht0 : 0 < t)
    (hK : K < 2 ^ 53) (h : (K : ℚ) ≤ (r : ℚ) / t) : (K : ℚ) ≤ (ratioOf r t).toRat := by
  obtain ⟨h1, h2⟩ := ratioOf_quot r t hr ht ht0
  apply Dbl.div_ge_nat _ _ K h1 hK
  rw [h2]
  exact h

theorem ratioOf_ge_one (r t : Nat) (hr : r < 2 ^ 53) (ht0 : 0 < t) (htr : t ≤ r) :
    1 ≤ (ratioOf r t).toRat := by
  have htq : (0 : ℚ) < t := by exact_mod_cast ht0
  have := ratioOf_ge_nat r t 1 hr (by omega) ht0 (by norm_num) (by
    rw [Nat.cast_one, le_div_iff₀ htq, one_mul]
    exact_mod_cast htr)
  simpa using this

theorem ratioOf_m_pos (r t : Nat) (hr : r < 2 ^ 53) (ht0 : 0 < t) (htr : t ≤ r) :
    0 < (ratioOf r t).m :=
  Dbl.m_pos_of_toRat_pos _ (lt_of_lt_of_le one_pos (ratioOf_ge_one r t hr ht0 htr))

theorem ratioOf_exact (k t : Nat) (hr : k * t < 2 ^ 53) (hk0 : 0 < k) (ht0 : 0 < t) :
    (ratioOf (k * t) t).toRat = k := by
  have htq : (t : ℚ) ≠ 0 := by exact_mod_cast ht0.ne'
  have hk : k < 2 ^ 53 := lt_of_le_of_lt (Nat.le_mul_of_pos_right k ht0) hr
  have ht : t < 2 ^ 53 := lt_of_le_of_lt (Nat.le_mul_of_pos_left t hk0) hr
  have hq : ((k * t : ℕ) : ℚ) / t = k := by
    push_cast
    field_simp
  apply le_antisymm
  · exact ratioOf_le_nat (k * t) t k hr ht ht0 hk (le_of_eq hq)
  · exact ratioOf_ge_nat (k * t) t k hr ht ht0 hk (le_of_eq hq.symm)

theorem newSizeOf_eq_floor (n r t : Nat) :
    newSizeOf n r t = ⌊(Dbl.div (Dbl.ofNat n) (ratioOf r t)).toRat⌋₊ :=
  Dbl.toSize_eq_floor _

theorem srcIndexOf_eq_floor (i r t : Nat) :
    srcIndexOf i r t = ⌊(Dbl.mul (Dbl.ofNat i) (ratioOf r t)).toRat⌋₊ :=
  Dbl.toSize_eq_floor _

theorem newSizeOf_exact (n k t : Nat) (hn : n < 2 ^ 53) (hr : k * t < 2 ^ 53) (hk0 : 0 < k)
    (ht0 : 0 < t) : newSizeOf n (k * t) t = n / k := by
  have hρ := ratioOf_exact k t hr hk0 ht0
  have hkq : (0 : ℚ) < k := by exact_mod_cast hk0
  have hmpos : 0 < (ratioOf (k * t) t).m := by
    apply Dbl.m_pos_of_toRat_pos
    rw [hρ]
    exact hkq
  have hx : (Dbl.ofNat n).toRat / (ratioOf (k * t) t).toRat = (n : ℚ) / k := by
    rw [Dbl.toRat_ofNat n hn, hρ]
  have herr := Dbl.div_err (Dbl.ofNat n) (ratioOf (k * t) t) hmpos
  rw [hx] at herr
  have hj : n / k < 2 ^ 53 := lt_of_le_of_lt (Nat.div_le_self n k) hn
  have hge := Dbl.div_ge_nat (Dbl.ofNat n) (ratioOf (k * t) t) (n / k) hmpos hj (by
    rw [hx]
    exact Nat.cast_div_le)
  rw [newSizeOf_eq_floor]
  set Q := (Dbl.div (Dbl.ofNat n) (ratioOf (k * t) t)).toRat with hQ
  rw [Nat.floor_eq_iff (le_trans (Nat.cast_nonneg _) hge)]
  refine ⟨hge, ?_⟩
  have h1 : n + 1 ≤ k * (n / k + 1) := Nat.lt_mul_div_succ n hk0
  have h1q : (n : ℚ) + 1 ≤ k * ((n / k : ℕ) + 1) := by exact_mod_cast h1
  have hnq : (n : ℚ) < 2 ^ 53 := by exact_mod_cast hn
  have h2 : Q ≤ (n : ℚ) / k + (n : ℚ) / k / 2 ^ 53 := by
    have := (abs_le.1 herr).2
    linarith
  have h3 : ((n : ℚ) / k + (n : ℚ) / k / 2 ^ 53) * k = n + n / 2 ^ 53 := by
    field_simp
    ring
  have h4 : Q * k < (((n / k : ℕ) : ℚ) + 1) * k := by
    calc Q * k ≤ ((n : ℚ) / k + (n : ℚ) / k / 2 ^ 53) * k :=
          mul_le_mul_of_nonneg_right h2 hkq.le
      _ = n + n / 2 ^ 53 := h3
      _ < n + 1 := by
          have : (n : ℚ) / 2 ^ 53 < 1 := by
            rw [div_lt_one (by norm_num)]
            exact hnq
          linarith
      _ ≤ (((n / k : ℕ) : ℚ) + 1) * k := by linarith
  exact lt_of_mul_lt_mul_right h4 hkq.le

theorem srcIndexOf_exact (i k t : Nat) (hi : i * k < 2 ^ 53) (hr : k * t < 2 ^ 53)
    (hk0 : 0 < k) (ht0 : 0 < t) : srcIndexOf i (k * t) t = i * k := by
  have hρ := ratioOf_exact k t hr hk0 ht0
  have hi' : i < 2 ^ 53 := lt_of_le_of_lt (Nat.le_mul_of_pos_right i hk0) hi
  have hx : (Dbl.ofNat i).toRat * (ratioOf (k * t) t).toRat = ((i * k : ℕ) : ℚ) := by
    rw [Dbl.toRat_ofNat i hi', hρ]
    push_cast
    rfl
  have h1 := Dbl.mul_le_nat (Dbl.ofNat i) (ratioOf (k * t) t) (i * k) hi (le_of_eq hx)
  have h2 := Dbl.mul_ge_nat (Dbl.ofNat i) (ratioOf (k * t) t) (i * k) hi (le_of_eq hx.symm)
  rw [srcIndexOf_eq_floor, le_antisymm h1 h2, Nat.floor_natCast]

theorem newSizeOf_eq_zero_iff (n r t : Nat) (hn : n < 2 ^ 53) (hr : r < 2 ^ 52) (ht0 : 0 < t)
    (htr : t < r) : newSizeOf n r t = 0 ↔ n * t < r := by
  have hr' : r < 2 ^ 53 := by omega
  have ht : t < 2 ^ 53 := by omega
  have hρ1 := ratioOf_ge_one r t hr' ht0 htr.le
  have hmpos := ratioOf_m_pos r t hr' ht0 htr.le
  have hρerr := ratioOf_err r t hr' ht ht0
  have htq : (0 : ℚ) < t := by exact_mod_cast ht0
  have herr := Dbl.div_err (Dbl.ofNat n) (ratioOf r t) hmpos
  rw [Dbl.toRat_ofNat n hn] at herr
  rw [newSizeOf_eq_floor, Nat.floor_eq_zero]
  set ρ := (ratioOf r t).toRat with hρ
  set Q := (Dbl.div (Dbl.ofNat n) (ratioOf r t)).toRat with hQ
  have hρpos : (0 : ℚ) < ρ := lt_of_lt_of_le one_pos hρ1
  constructor
  · intro hlt
    by_contra hcon
    have hge : r ≤ n * t := Nat.le_of_not_lt hcon
    have hgeq : (r : ℚ) ≤ n * t := by exact_mod_cast hge
    have h1 : (r : ℚ) / t ≤ n := by
      rw [div_le_iff₀ htq]
      exact hgeq
    have h2 : ρ ≤ n := ratioOf_le_nat r t n hr' ht ht0 hn h1
    have h3 : ((1 : ℕ) : ℚ) ≤ (Dbl.ofNat n).toRat / (ratioOf r t).toRat := by
      rw [Dbl.toRat_ofNat n hn, Nat.cast_one, le_div_iff₀ hρpos, one_mul]
      exact h2
    have h4 := Dbl.div_ge_nat (Dbl.ofNat n) (ratioOf r t) 1 hmpos (by norm_num) h3
    rw [Nat.cast_one] at h4
    linarith
  · intro hlt
    have hle : n * t + 1 ≤ r := hlt
    have hleq : (n : ℚ) * t + 1 ≤ r := by exact_mod_cast hle
    have hrq : (r : ℚ) < 2 ^ 52 := by exact_mod_cast hr
    -- ρ * t ≥ r - r / 2^53
    have h1 : (r : ℚ) / t - (r : ℚ) / t / 2 ^ 53 ≤ ρ := by
      have := (abs_le.1 hρerr).1
      linarith
    have h2 : (r : ℚ) - r / 2 ^ 53 ≤ ρ * t := by
      have := mul_le_mul_of_nonneg_right h1 htq.le
      have e : ((r : ℚ) / t - (r : ℚ) / t / 2 ^ 53) * t = r - r / 2 ^ 53 := by
        field_simp
        ring
      rw [e] at this
      exact this
    -- (n + n / 2^53) * t < ρ * t
    have h3 : ((n : ℚ) + n / 2 ^ 53) * t < ρ * t := by
      have e : ((n : ℚ) + n / 2 ^ 53) * t = (n * t) + (n * t) / 2 ^ 53 := by ring
      rw [e]
      have : (n : ℚ) * t ≤ r - 1 := by linarith
      have h5 : ((n : ℚ) * t) / 2 ^ 53 ≤ (r - 1) / 2 ^ 53 :=
        div_le_div_of_nonneg_right this (by norm_num)
      have h6 : (r : ℚ) / 2 ^ 53 < 1 / 2 := by
        rw [div_lt_iff₀ (by norm_num)]
        norm_num at hrq ⊢
        linarith
      have h7 : ((r : ℚ) - 1) / 2 ^ 53 ≤ r / 2 ^ 53 :=
        div_le_div_of_nonneg_right (by linarith) (by norm_num)
      linarith
    have h4 : (n : ℚ) + n / 2 ^ 53 < ρ := lt_of_mul_lt_mul_right h3 htq.le
    have h5 : Q ≤ (n : ℚ) / ρ + (n : ℚ) / ρ / 2 ^ 53 := by
      have := (abs_le.1 herr).2
      linarith
    have h6 : (n : ℚ) / ρ + (n : ℚ) / ρ / 2 ^ 53 = ((n : ℚ) + n / 2 ^ 53) / ρ := by
      field_simp
      ring
    rw [h6] at h5
    have h7 : ((n : ℚ) + n / 2 ^ 53) / ρ < 1 := by
      rw [div_lt_one hρpos]
      exact h4
    linarith

theorem srcIndexOf_lt (n r t i : Nat) (hn : n ≤ 2 ^ 52) (hr : r < 2 ^ 53) (ht0 : 0 < t)
    (htr : t ≤ r) (hi : i < newSizeOf n r t) : srcIndexOf i r t < n := by
  have hn' : n < 2 ^ 53 := by omega
  have ht : t < 2 ^ 53 := by omega
  have hρ1 := ratioOf_ge_one r t hr ht0 htr
  have hmpos := ratioOf_m_pos r t hr ht0 htr
  have herr := Dbl.div_err (Dbl.ofNat n) (ratioOf r t) hmpos
  rw [Dbl.toRat_ofNat n hn'] at herr
  rw [newSizeOf_eq_floor] at hi
  have hQnn : 0 ≤ (Dbl.div (Dbl.ofNat n) (ratioOf r t)).toRat := Dbl.toRat_nonneg _
  have hiQ : ((i + 1 : ℕ) : ℚ) ≤ (Dbl.div (Dbl.ofNat n) (ratioOf r t)).toRat :=
    le_trans (by exact_mod_cast (Nat.succ_le_of_lt hi)) (Nat.floor_le hQnn)
  have hile : i < n := by
    have h1 : (Dbl.div (Dbl.ofNat n) (ratioOf r t)).toRat ≤ n := by
      apply Dbl.div_le_nat _ _ n hmpos hn'
      rw [Dbl.toRat_ofNat n hn', div_le_iff₀ (lt_of_lt_of_le one_pos hρ1)]
      have : (0 : ℚ) ≤ n := Nat.cast_nonneg n
      nlinarith
    have : ((i + 1 : ℕ) : ℚ) ≤ n := le_trans hiQ h1
    have : i + 1 ≤ n := by exact_mod_cast this
    omega
  have hi53 : i < 2 ^ 53 := by omega
  have hPerr := Dbl.mul_err (Dbl.ofNat i) (ratioOf r t)
  rw [Dbl.toRat_ofNat i hi53] at hPerr
  rw [srcIndexOf_eq_floor]
  set ρ := (ratioOf r t).toRat with hρ
  set Q := (Dbl.div (Dbl.ofNat n) (ratioOf r t)).toRat with hQ
  set P := (Dbl.mul (Dbl.ofNat i) (ratioOf r t)).toRat with hP
  have hρpos : (0 : ℚ) < ρ := lt_of_lt_of_le one_pos hρ1
  have hnq : (n : ℚ) ≤ 2 ^ 52 := by exact_mod_cast hn
  have hn0 : (0 : ℚ) ≤ n := Nat.cast_nonneg n
  have hi0 : (0 : ℚ) ≤ i := Nat.cast_nonneg i
  -- Q * ρ ≤ n + n / 2^53
  have h1 : Q ≤ (n : ℚ) / ρ + (n : ℚ) / ρ / 2 ^ 53 := by
    have := (abs_le.1 herr).2
    linarith
  have h2 : Q * ρ ≤ n + n / 2 ^ 53 := by
    have := mul_le_mul_of_nonneg_right h1 hρpos.le
    have e : ((n : ℚ) / ρ + (n : ℚ) / ρ / 2 ^ 53) * ρ = n + n / 2 ^ 53 := by
      field_simp
      ring
    rw [e] at this
    exact this
  have h3 : ((i : ℚ) + 1) * ρ ≤ n + n / 2 ^ 53 := by
    have : ((i : ℚ) + 1) * ρ ≤ Q * ρ := by
      apply mul_le_mul_of_nonneg_right _ hρpos.le
      exact_mod_cast hiQ
    linarith
  have h4 : (n : ℚ) / 2 ^ 53 ≤ 1 / 2 := by
    rw [div_le_iff₀ (by norm_num)]
    norm_num at hnq ⊢
    linarith
  have h5 : (i : ℚ) * ρ ≤ n - 1 / 2 := by
    have : ((i : ℚ) + 1) * ρ = i * ρ + ρ := by ring
    linarith
  have h6 : P ≤ (i : ℚ) * ρ + (i : ℚ) * ρ / 2 ^ 53 := by
    have := (abs_le.1 hPerr).2
    linarith
  have h7 : (i : ℚ) * ρ / 2 ^ 53 < 1 / 2 := by
    have : (i : ℚ) * ρ / 2 ^ 53 ≤ (n - 1 / 2) / 2 ^ 53 :=
      div_le_div_of_nonneg_right h5 (by norm_num)
    have h8 : ((n : ℚ) - 1 / 2) / 2 ^ 53 < n / 2 ^ 53 :=
      div_lt_div_of_pos_right (by linarith) (by norm_num)
    linarith
  have h9 : P < n := by linarith
  exact (Nat.floor_lt (Dbl.toRat_nonneg _)).2 h9

theorem newSizeOf_near (n r t : Nat) (hn : n ≤ 2 ^ 51) (hr : r < 2 ^ 53) (ht0 : 0 < t)
    (htr : t ≤ r) : newSizeOf n r t ≤ n * t / r + 1 ∧ n * t / r ≤ newSizeOf n r t + 1 := by
  have hn' : n < 2 ^ 53 := by omega
  have ht : t < 2 ^ 53 := by omega
  have hr0 : 0 < r := by omega
  have hρ1 := ratioOf_ge_one r t hr ht0 htr
  have hmpos := ratioOf_m_pos r t hr ht0 htr
  have hρerr := ratioOf_err r t hr ht ht0
  have herr := Dbl.div_err (Dbl.ofNat n) (ratioOf r t) hmpos
  rw [Dbl.toRat_ofNat n hn'] at herr
  have hQnn : 0 ≤ (Dbl.div (Dbl.ofNat n) (ratioOf r t)).toRat := Dbl.toRat_nonneg _
  rw [newSizeOf_eq_floor]
  set ρ := (ratioOf r t).toRat with hρ
  set Q := (Dbl.div (Dbl.ofNat n) (ratioOf r t)).toRat with hQ
  have htq : (0 : ℚ) < t := by exact_mod_cast ht0
  have hrq : (0 : ℚ) < r := by exact_mod_cast hr0
  have hρpos : (0 : ℚ) < ρ := lt_of_lt_of_le one_pos hρ1
  have hnq : (n : ℚ) ≤ 2 ^ 51 := by exact_mod_cast hn
  have hn0 : (0 : ℚ) ≤ n := Nat.cast_nonneg n
  set X : ℚ := (r : ℚ) / t with hX
  have hX1 : 1 ≤ X := by
    rw [hX, le_div_iff₀ htq, one_mul]
    exact_mod_cast htr
  have hx : ((n * t : ℕ) : ℚ) / (r : ℚ) = (n : ℚ) / X := by
    rw [hX]
    push_cast
    field_simp
  have hnu : (n : ℚ) / 2 ^ 53 ≤ 1 / 4 := by
    rw [div_le_iff₀ (by norm_num)]
    norm_num at hnq ⊢
    linarith
  have hXu : X / 2 ^ 53 ≤ X / 2 := by
    apply div_le_div_of_nonneg_left (by linarith) (by norm_num) (by norm_num)
  -- bounds on Q * ρ
  have h1 : Q * ρ ≤ n + n / 2 ^ 53 := by
    have h := (abs_le.1 herr).2
    have := mul_le_mul_of_nonneg_right (by linarith : Q ≤ (n : ℚ) / ρ + (n : ℚ) / ρ / 2 ^ 53)
      hρpos.le
    have e : ((n : ℚ) / ρ + (n : ℚ) / ρ / 2 ^ 53) * ρ = n + n / 2 ^ 53 := by
      field_simp
      ring
    rw [e] at this
    exact this
  have h2 : (n : ℚ) - n / 2 ^ 53 ≤ Q * ρ := by
    have h := (abs_le.1 herr).1
    have := mul_le_mul_of_nonneg_right (by linarith : (n : ℚ) / ρ - (n : ℚ) / ρ / 2 ^ 53 ≤ Q)
      hρpos.le
    have e : ((n : ℚ) / ρ - (n : ℚ) / ρ / 2 ^ 53) * ρ = n - n / 2 ^ 53 := by
      field_simp
      ring
    rw [e] at this
    exact this
  have h3 : X - X / 2 ^ 53 ≤ ρ := by
    have := (abs_le.1 hρerr).1
    linarith
  have h4 : ρ ≤ X + X / 2 ^ 53 := by
    have := (abs_le.1 hρerr).2
    linarith
  -- upper: Q * X < n + X
  have hup : Q * X < n + X := by
    by_contra hcon
    have hc : (n : ℚ) + X ≤ Q * X := not_lt.1 hcon
    have h5 : Q * (X - X / 2 ^ 53) ≤ Q * ρ := mul_le_mul_of_nonneg_left h3 hQnn
    have h6 : Q * (X - X / 2 ^ 53) = Q * X - Q * X / 2 ^ 53 := by ring
    have h7 : ((n : ℚ) + X) - ((n : ℚ) + X) / 2 ^ 53 ≤ Q * X - Q * X / 2 ^ 53 := by
      have : ((n : ℚ) + X) / 2 ^ 53 * (2 ^ 53 - 1) ≤ Q * X / 2 ^ 53 * (2 ^ 53 - 1) :=
        mul_le_mul_of_nonneg_right (div_le_div_of_nonneg_right hc (by norm_num)) (by norm_num)
      have e1 : ((n : ℚ) + X) / 2 ^ 53 * (2 ^ 53 - 1) = ((n : ℚ) + X) - ((n : ℚ) + X) / 2 ^ 53 := by
        ring
      have e2 : Q * X / 2 ^ 53 * (2 ^ 53 - 1) = Q * X - Q * X / 2 ^ 53 := by ring
      linarith
    have h8 : ((n : ℚ) + X) / 2 ^ 53 = n / 2 ^ 53 + X / 2 ^ 53 := by ring
    linarith
  -- lower: n < Q * X + X
  have hlow : (n : ℚ) < Q * X + X := by
    by_contra hcon
    have hc : Q * X + X ≤ n := not_lt.1 hcon
    have h5 : Q * ρ ≤ Q * (X + X / 2 ^ 53) := mul_le_mul_of_nonneg_left h4 hQnn
    have h6 : Q * (X + X / 2 ^ 53) = Q * X + Q * X / 2 ^ 53 := by ring
    have h7 : Q * X / 2 ^ 53 ≤ (n - X) / 2 ^ 53 :=
      div_le_div_of_nonneg_right (by linarith) (by norm_num)
    have h8 : ((n : ℚ) - X) / 2 ^ 53 = n / 2 ^ 53 - X / 2 ^ 53 := by ring
    have h9 : 0 ≤ X / 2 ^ 53 := by positivity
    linarith
  have hXpos : (0 : ℚ) < X := lt_of_lt_of_le one_pos hX1
  have hfl : n * t / r = ⌊(n : ℚ) / X⌋₊ := by
    rw [← hx, Nat.floor_div_eq_div]
  rw [hfl]
  constructor
  · have : Q ≤ (n : ℚ) / X + 1 := by
      rw [div_add_one hXpos.ne', le_div_iff₀ hXpos]
      exact hup.le
    calc ⌊Q⌋₊ ≤ ⌊(n : ℚ) / X + 1⌋₊ := Nat.floor_le_floor this
      _ = ⌊(n : ℚ) / X⌋₊ + 1 := Nat.floor_add_one (by positivity)
  · have : (n : ℚ) / X ≤ Q + 1 := by
      rw [div_le_iff₀ hXpos]
      have : (Q + 1) * X = Q * X + X := by ring
      linarith
    calc ⌊(n : ℚ) / X⌋₊ ≤ ⌊Q + 1⌋₊ := Nat.floor_le_floor this
      _ = ⌊Q⌋₊ + 1 := Nat.floor_add_one hQnn

/-! ## The copy loop -/

theorem copyStep_length (d : List Int) (r t : Nat) (out : List Int) (i : Nat) :
    (copyStep d r t out i).length = out.length := by
  unfold copyStep
  simp only
  split_ifs <;> simp

theorem foldl_copyStep_length (d : List Int) (r t : Nat) (l : List Nat) (out : List Int) :
    (l.foldl (copyStep d r t) out).length = out.length := by
  induction l generalizing out with
  | nil => rfl
  | cons a l ih => rw [List.foldl_cons, ih, copyStep_length]

theorem copyStep_getElem? (d : List Int) (r t : Nat) (out : List Int) (i j : Nat) :
    (copyStep d r t out i)[j]? =
      if i = j ∧ i < out.length ∧ srcIndexOf i r t < d.length
      then some (d.getD (srcIndexOf i r t) 0) else out[j]? := by
  unfold copyStep
  simp only
  by_cases hs : srcIndexOf i r t < d.length
  · rw [if_pos hs, List.getElem?_set]
    by_cases hij : i = j
    · subst hij
      by_cases hl : i < out.length
      · simp [hs, hl]
      · have : out[i]? = none := List.getElem?_eq_none (by omega)
        simp [hl, this]
    · simp [hij]
  · simp [hs]

theorem foldl_copyStep_getElem? (d : List Int) (r t : Nat) (k : Nat) (out : List Int) (j : Nat) :
    ((List.range k).foldl (copyStep d r t) out)[j]? =
      if j < k ∧ j < out.length ∧ srcIndexOf j r t < d.length
      then some (d.getD (srcIndexOf j r t) 0) else out[j]? := by
  induction k with
  | zero => simp
  | succ k ih =>
    rw [List.range_succ, List.foldl_append, List.foldl_cons, List.foldl_nil,
      copyStep_getElem?, foldl_copyStep_length, ih]
    by_cases hkj : k = j
    · subst hkj
      by_cases h1 : k < out.length ∧ srcIndexOf k r t < d.length
      · simp [h1]
      · have h2 : ¬ (k < k + 1 ∧ k < out.length ∧ srcIndexOf k r t < d.length) := by tauto
        simp only [true_and, if_neg h1, h2, if_false, lt_irrefl, false_and]
    · by_cases hjk : j < k
      · have : j < k + 1 := by omega
        simp [hkj, hjk, this]
      · have : ¬ j < k + 1 := by omega
        simp [hkj, hjk, this]

theorem downsample_valid (self : AudioDownsampler) (t : Nat) (hne : self.audioData ≠ [])
    (ht0 : 0 < t) (htr : t < self.originalSampleRate) :
    (downsample self t).1 =
      (List.range (newSizeOf self.audioData.length self.originalSampleRate t)).foldl
        (copyStep self.audioData self.originalSampleRate t)
        (List.replicate (newSizeOf self.audioData.length self.originalSampleRate t) 0) := by
  unfold downsample
  have h1 : self.audioData.isEmpty = false := by
    cases h : self.audioData with
    | nil => exact absurd h hne
    | cons a l => rfl
  have h2 : ¬ (t = 0 ∨ t ≥ self.originalSampleRate) := by omega
  simp only [h1, Bool.false_eq_true, if_false, h2]
  by_cases h3 : newSizeOf self.audioData.length self.originalSampleRate t = 0
  · simp [h3]
  · simp [h3]

theorem downsample_length (self : AudioDownsampler) (t : Nat) (hne : self.audioData ≠ [])
    (ht0 : 0 < t) (htr : t < self.originalSampleRate) :
    (downsample self t).1.length = newSizeOf self.audioData.length self.originalSampleRate t := by
  rw [downsample_valid self t hne ht0 htr, foldl_copyStep_length, List.length_replicate]

theorem downsample_getElem? (self : AudioDownsampler) (t : Nat) (hne : self.audioData ≠ [])
    (ht0 : 0 < t) (htr : t < self.originalSampleRate) (i : Nat)
    (hi : i < newSizeOf self.audioData.length self.originalSampleRate t) :
    (downsample self t).1[i]? =
      if srcIndexOf i self.originalSampleRate t < self.audioData.length
      then some (self.audioData.getD (srcIndexOf i self.originalSampleRate t) 0) else some 0 := by
  rw [downsample_valid self t hne ht0 htr, foldl_copyStep_getElem?]
  by_cases hs : srcIndexOf i self.originalSampleRate t < self.audioData.length
  · simp [hi, hs]
  · simp [hi, hs]

theorem downsample_state (self : AudioDownsampler) (t : Nat) : (downsample self t).2 = self := by
  unfold downsample
  simp only
  split_ifs <;> rfl

/-! ## The bytes `saveAsWav` writes -/

theorem samplesBytes_length (D : List Int) : (samplesBytes D).length = 2 * D.length := by
  induction D with
  | nil => rfl
  | cons x l ih =>
    have : samplesBytes (x :: l) = sampleBytes x ++ samplesBytes l := by
      simp [samplesBytes]
    rw [this, List.length_append, ih]
    simp [sampleBytes, le16]
    omega

theorem wavHeaderOf_fields (D : List Int) (s : Nat) (hsz : 36 + 2 * D.length < 2 ^ 32)
    (hs : 4 * s < 2 ^ 32) :
    wavHeaderOf D s =
      { chunkSize := 36 + 2 * D.length, sampleRate := s, byteRate := s * 2 * 2,
        blockAlign := 4, dataSize := 2 * D.length } := by
  have h1 : D.length * 2 % 2 ^ 32 = 2 * D.length := by
    rw [Nat.mod_eq_of_lt (by omega)]
    omega
  have h2 : s % 2 ^ 32 = s := Nat.mod_eq_of_lt (by omega)
  have h3 : s * (2 * 2 % 2 ^ 16) % 2 ^ 32 = s * 2 * 2 := by
    have e : (2 * 2 % 2 ^ 16 : ℕ) = 4 := by norm_num
    rw [e, Nat.mod_eq_of_lt (by omega)]
    omega
  have h4 : (36 + 2 * D.length) % 2 ^ 32 = 36 + 2 * D.length := Nat.mod_eq_of_lt hsz
  unfold wavHeaderOf
  simp only [h1, h2, h3, h4]
  rfl

theorem wavFileBytes_eq (D : List Int) (s : Nat) (hsz : 36 + 2 * D.length < 2 ^ 32)
    (hs : 4 * s < 2 ^ 32) :
    wavFileBytes D s =
      tagBytes ['R', 'I', 'F', 'F'] ++ le32 (36 + 2 * D.length) ++ tagBytes ['W', 'A', 'V', 'E'] ++
      tagBytes ['f', 'm', 't', ' '] ++ le32 16 ++ le16 1 ++ le16 2 ++ le32 s ++ le32 (s * 2 * 2) ++
      le16 4 ++ le16 16 ++ tagBytes ['d', 'a', 't', 'a'] ++ le32 (2 * D.length) ++
      samplesBytes D := by
  unfold wavFileBytes
  simp only
  rw [wavHeaderOf_fields D s hsz hs]
  simp only [WavHeader.bytes]
  rw [List.take_of_length_le (by rw [samplesBytes_length])]

/-! ## The fallback reader -/

theorem IStream.read_full (s : IStream) (buf : List Nat) (hg : s.good = true)
    (hlen : s.pos + buf.length ≤ s.bytes.length) :
    s.read buf = ((s.bytes.drop s.pos).take buf.length, ⟨s.bytes, s.pos + buf.length, true⟩) := by
  have hl : ((s.bytes.drop s.pos).take buf.length).length = buf.length := by
    rw [List.length_take, List.length_drop]
    omega
  unfold IStream.read
  simp only [hg, if_true, hl, List.drop_length, List.append_nil, beq_self_eq_true]

theorem IStream.read_bytes (s : IStream) (buf : List Nat) : (s.read buf).2.bytes = s.bytes := by
  unfold IStream.read
  split_ifs <;> rfl

theorem IStream.read_good (s : IStream) (buf : List Nat) (h : (s.read buf).2.good = true) :
    s.good = true ∧ (s.read buf).2.pos = s.pos + buf.length := by
  unfold IStream.read at h ⊢
  by_cases hg : s.good = true
  · simp only [hg, if_true] at h ⊢
    simp only [beq_iff_eq] at h
    exact ⟨trivial, by rw [h]⟩
  · simp only [hg] at h ⊢
    exact absurd h hg

theorem cstr_initial (buf : List Nat) : cstr buf <+: buf := List.takeWhile_prefix _

theorem cstr_read_ne (s : IStream) (tag : List Nat) (htag : tag.length = 4)
    (hnz : ∀ b ∈ tag, b ≠ 0)
    (h : s.good = false ∨ (s.bytes.drop s.pos).take 4 ≠ tag) :
    cstr ((s.read [0, 0, 0, 0]).1 ++ [0]) ≠ tag := by
  intro hc
  have hpre := cstr_initial ((s.read [0, 0, 0, 0]).1 ++ [0])
  rw [hc] at hpre
  -- the tag is the first four bytes of the buffer
  have hbuf : ((s.read [0, 0, 0, 0]).1 ++ [0]).take 4 = tag := by
    have := List.prefix_iff_eq_take.1 hpre
    rw [htag] at this
    exact this.symm
  unfold IStream.read at hbuf
  by_cases hg : s.good = true
  · simp only [hg, if_true] at hbuf
    rcases h with h | h
    · rw [hg] at h; exact absurd h (by simp)
    · set got := (s.bytes.drop s.pos).take 4 with hgot
      have hgl : got.length ≤ 4 := by
        rw [hgot, List.length_take]
        omega
      simp only [List.length_cons, List.length_nil] at hbuf
      change (got ++ List.drop got.length [0, 0, 0, 0] ++ [0]).take 4 = tag at hbuf
      rcases Nat.lt_or_ge got.length 4 with hlt | hge
      · -- a short read leaves a zero byte among the first four
        have hz : (0 : Nat) ∈ tag := by
          rw [← hbuf]
          match got, hlt with
          | [], _ => simp
          | [a], _ => simp
          | [a, b], _ => simp
          | [a, b, c], _ => simp
        exact hnz 0 hz rfl
      · have h4 : got.length = 4 := by omega
        rw [h4] at hbuf
        simp only [List.drop_succ_cons, List.drop_nil, List.append_nil, List.drop_zero] at hbuf
        rw [List.take_append_of_le_length (by omega), List.take_of_length_le (by omega)] at hbuf
        exact h hbuf
  · simp only [hg] at hbuf
    have hz : (0 : Nat) ∈ tag := by
      rw [← hbuf]
      simp
    exact hnz 0 hz rfl

theorem tag_riff : (tagBytes ['R', 'I', 'F', 'F']).length = 4 ∧
    ∀ b ∈ tagBytes ['R', 'I', 'F', 'F'], b ≠ 0 := by decide

theorem tag_wave : (tagBytes ['W', 'A', 'V', 'E']).length = 4 ∧
    ∀ b ∈ tagBytes ['W', 'A', 'V', 'E'], b ≠ 0 := by decide

theorem tag_data : (tagBytes ['d', 'a', 't', 'a']).length = 4 ∧
    ∀ b ∈ tagBytes ['d', 'a', 't', 'a'], b ≠ 0 := by decide

theorem loadWavFileFallback_bad_tags (self : AudioDownsampler) (fs : FileSystem)
    (filename : String) (uninit : Nat) (fileBytes : List Nat)
    (hfile : fs.content filename = some fileBytes)
    (h : fileBytes.take 4 ≠ tagBytes ['R', 'I', 'F', 'F'] ∨
      (fileBytes.drop 8).take 4 ≠ tagBytes ['W', 'A', 'V', 'E'] ∨
      (fileBytes.drop 36).take 4 ≠ tagBytes ['d', 'a', 't', 'a']) :
    loadWavFileFallback self fs filename uninit = (false, self) := by
  unfold loadWavFileFallback
  simp only [hfile]
  split_ifs with h1 h2
  · rfl
  · rfl
  · exfalso
    rw [not_or, not_not, not_not] at h1
    rw [not_not] at h2
    obtain ⟨hr, hw⟩ := h1
    set s0 : IStream := ⟨fileBytes, 0, true⟩ with hs0
    -- the RIFF tag was read whole
    have hriff : fileBytes.take 4 = tagBytes ['R', 'I', 'F', 'F'] := by
      by_contra hne
      exact cstr_read_ne s0 _ tag_riff.1 tag_riff.2 (Or.inr (by simpa [hs0] using hne)) hr
    -- the third read happened on a good stream at offset 8
    have hg3 : (((s0.read [0, 0, 0, 0]).2.read [0, 0, 0, 0]).2.good = true) := by
      by_contra hne
      exact cstr_read_ne _ _ tag_wave.1 tag_wave.2 (Or.inl (by simpa using hne)) hw
    obtain ⟨hg2, hp3⟩ := IStream.read_good _ _ hg3
    obtain ⟨_, hp2⟩ := IStream.read_good _ _ hg2
    have hwave : (fileBytes.drop 8).take 4 = tagBytes ['W', 'A', 'V', 'E'] := by
      by_contra hne
      refine cstr_read_ne _ _ tag_wave.1 tag_wave.2 (Or.inr ?_) hw
      rw [IStream.read_bytes, IStream.read_bytes, hp3, hp2]
      simpa [hs0] using hne
    have hdata : (fileBytes.drop 36).take 4 ≠ tagBytes ['d', 'a', 't', 'a'] := by
      rcases h with h | h | h
      · exact absurd hriff h
      · exact absurd hwave h
      · exact h
    refine cstr_read_ne _ _ tag_data.1 tag_data.2 ?_ h2
    unfold IStream.seekg
    split_ifs with hg
    · right
      simp only [IStream.read_bytes]
      simpa [hs0] using hdata
    · left
      simpa using hg

theorem sampleOfBytes_sampleBytes (x : Int) (h1 : -32768 ≤ x) (h2 : x ≤ 32767) :
    sampleOfBytes ((x % 65536).toNat % 256) ((x % 65536).toNat / 256 % 256) = x := by
  unfold sampleOfBytes
  simp only
  split_ifs with h <;> omega

theorem bytesSamples_samplesBytes (D : List Int) (h : InRange16 D) :
    bytesSamples (samplesBytes D) = D := by
  induction D with
  | nil => rfl
  | cons x l ih =>
    have hx := h x (List.mem_cons_self x l)
    have hl : InRange16 l := fun y hy => h y (List.mem_cons_of_mem x hy)
    have e : samplesBytes (x :: l) =
        (x % 65536).toNat % 256 :: (x % 65536).toNat / 256 % 256 :: samplesBytes l := by
      simp [samplesBytes, sampleBytes, le16]
    rw [e, bytesSamples, ih hl, sampleOfBytes_sampleBytes x hx.1 hx.2]

theorem fromLE_le32 (v : Nat) (h : v < 2 ^ 32) : fromLE (le32 v) = v := by
  simp only [fromLE, le32, List.foldr]
  omega

theorem wavFileBytes_parts (D : List Int) (s : Nat) (hsz : 2 * D.length < 2 ^ 32) :
    (wavFileBytes D s).length = 44 + 2 * D.length ∧
    (wavFileBytes D s).take 4 = tagBytes ['R', 'I', 'F', 'F'] ∧
    ((wavFileBytes D s).drop 8).take 4 = tagBytes ['W', 'A', 'V', 'E'] ∧
    ((wavFileBytes D s).drop 36).take 4 = tagBytes ['d', 'a', 't', 'a'] ∧
    ((wavFileBytes D s).drop 40).take 4 = le32 (2 * D.length) ∧
    (wavFileBytes D s).drop 44 = samplesBytes D := by
  have h1 : D.length * 2 % 2 ^ 32 = 2 * D.length := by
    rw [Nat.mod_eq_of_lt (by omega)]
    omega
  have h2 : (samplesBytes D).take (2 * D.length) = samplesBytes D :=
    List.take_of_length_le (by rw [samplesBytes_length])
  unfold wavFileBytes
  simp only [wavHeaderOf, h1, h2, WavHeader.bytes, tagBytes, le32, le16, List.map, List.cons_append,
    List.nil_append, List.append_assoc]
  refine ⟨?_, rfl, rfl, rfl, rfl, rfl⟩
  simp only [List.length_cons, samplesBytes_length]
  omega

theorem IStream.read_at (fileBytes : List Nat) (p k q : Nat) (buf : List Nat)
    (hk : buf.length = k) (hq : q = p + k) (h : q ≤ fileBytes.length) :
    (⟨fileBytes, p, true⟩ : IStream).read buf =
      ((fileBytes.drop p).take k, ⟨fileBytes, q, true⟩) := by
  subst hk hq
  exact IStream.read_full _ _ rfl h

theorem resize_length (v : List Int) (n : Nat) : (resize v n).length = n := by
  unfold resize
  rw [List.length_append, List.length_take, List.length_replicate]
  omega

theorem cstr_tags :
    cstr (tagBytes ['R', 'I', 'F', 'F'] ++ [0]) = tagBytes ['R', 'I', 'F', 'F'] ∧
    cstr (tagBytes ['W', 'A', 'V', 'E'] ++ [0]) = tagBytes ['W', 'A', 'V', 'E'] ∧
    cstr (tagBytes ['d', 'a', 't', 'a'] ++ [0]) = tagBytes ['d', 'a', 't', 'a'] := by
  decide

theorem loadWavFileFallback_wavFileBytes (self : AudioDownsampler) (fs : FileSystem)
    (filename : String) (uninit : Nat) (D : List Int) (s : Nat) (hne : D ≠ [])
    (hrange : InRange16 D) (hsz : 2 * D.length < 2 ^ 32)
    (hfile : fs.content filename = some (wavFileBytes D s)) :
    loadWavFileFallback self fs filename uninit =
      (true, { self with channels := 2, originalSampleRate := 44100, audioData := D }) := by
  obtain ⟨hlen, hriff, hwave, hdata, hsize, hpay⟩ := wavFileBytes_parts D s hsz
  have hfrom := fromLE_le32 (2 * D.length) hsz
  set fileBytes := wavFileBytes D s with hfb
  have e1 := IStream.read_at fileBytes 0 4 4 [0, 0, 0, 0] rfl rfl (by omega)
  have e2 := IStream.read_at fileBytes 4 4 8 [0, 0, 0, 0] rfl rfl (by omega)
  have e3 := IStream.read_at fileBytes 8 4 12 [0, 0, 0, 0] rfl rfl (by omega)
  have e4 := IStream.read_at fileBytes 36 4 40 [0, 0, 0, 0] rfl rfl (by omega)
  have e5 := IStream.read_at fileBytes 40 4 44 (le32 uninit) rfl rfl (by omega)
  have hbuf : (samplesBytes (resize self.audioData D.length) ++ List.replicate 0 0).length
      = 2 * D.length := by
    rw [List.length_append, samplesBytes_length, resize_length]
    rfl
  have e6 := IStream.read_at fileBytes 44 (2 * D.length) (44 + 2 * D.length)
    (samplesBytes (resize self.audioData D.length) ++ List.replicate 0 0) hbuf rfl (by omega)
  rw [hpay, List.take_of_length_le (by rw [samplesBytes_length])] at e6
  rw [List.drop_zero, hriff] at e1
  rw [hwave] at e3
  rw [hdata] at e4
  rw [hsize] at e5
  have hD2 : 2 * D.length / 2 = D.length := by omega
  have hD3 : 2 * D.length % 2 = 0 := by omega
  unfold loadWavFileFallback
  simp only [hfile, e1, e2, e3, IStream.seekg, if_true, e4, cstr_tags.1, cstr_tags.2.1,
    cstr_tags.2.2, ne_eq, not_true_eq_false, or_self, if_false, e5, hfrom, hD2, hD3, e6]
  rw [List.take_of_length_le (by rw [samplesBytes_length]), bytesSamples_samplesBytes D hrange]
  have : D.isEmpty = false := by
    cases D with
    | nil => exact absurd rfl hne
    | cons a l => rfl
  simp [this]

/-! ## Identity fallback and `main` -/

theorem isEmpty_false_of_ne_nil (l : List Int) (h : l ≠ []) : l.isEmpty = false := by
  cases l with
  | nil => exact absurd rfl h
  | cons a t => rfl

theorem downsample_fallback (self : AudioDownsampler) (t : Nat) (hne : self.audioData ≠ [])
    (h : t = 0 ∨ t ≥ self.originalSampleRate) : downsample self t = (self.audioData, self) := by
  unfold downsample
  rw [isEmpty_false_of_ne_nil _ hne]
  simp only [Bool.false_eq_true, if_false, h, if_true]

theorem downsample_getElem?_src (self : AudioDownsampler) (t : Nat) (hne : self.audioData ≠ [])
    (hlen : self.audioData.length ≤ 2 ^ 52) (ht0 : 0 < t) (htr : t < self.originalSampleRate)
    (hr : self.originalSampleRate < 2 ^ 32) (i : Nat) (hi : i < (downsample self t).1.length) :
    srcIndexOf i self.originalSampleRate t < self.audioData.length ∧
    (downsample self t).1[i]? = self.audioData[srcIndexOf i self.originalSampleRate t]? := by
  rw [downsample_length self t hne ht0 htr] at hi
  have hsrc := srcIndexOf_lt self.audioData.length self.originalSampleRate t i hlen
    (by omega) ht0 htr.le hi
  refine ⟨hsrc, ?_⟩
  rw [downsample_getElem? self t hne ht0 htr i hi, if_pos hsrc, List.getD_eq_getElem _ _ hsrc,
    List.getElem?_eq_getElem hsrc]

theorem wavHeader_bytes_length (h : WavHeader) (h1 : h.riff.length = 4) (h2 : h.wave.length = 4)
    (h3 : h.fmt.length = 4) (h4 : h.data.length = 4) : h.bytes.length = 44 := by
  simp [WavHeader.bytes, tagBytes, le32, le16, h1, h2, h3, h4]

theorem wavFileBytes_truncated (D : List Int) (s : Nat) (h : D.length * 2 % 2 ^ 32 = 0) :
    (wavFileBytes D s).length = 44 := by
  unfold wavFileBytes
  simp only
  have e : (wavHeaderOf D s).dataSize = 0 := h
  rw [e, List.take_zero, List.append_nil]
  exact wavHeader_bytes_length _ rfl rfl rfl rfl

theorem main_fallback_general
    (convertAudio : AudioDownsampler → String → Bool × AudioDownsampler) (stoi : String → Int)
    (argv : List String) (fs : FileSystem) (uninit : Nat) (st : AudioDownsampler)
    (t : Nat) (out : String) (hargc : 3 ≤ argv.length)
    (hload : loadAudioFile convertAudio AudioDownsampler.new fs (argv.getD 1 "") uninit = (true, st))
    (hne : st.audioData ≠ [])
    (ht : (stoi (argv.getD 2 "") % 2 ^ 32).toNat = t)
    (hid : t = 0 ∨ t ≥ st.originalSampleRate)
    (hout : (if argv.length ≥ 4 then argv.getD 3 "" else "output.wav") = out)
    (hcreate : fs.canCreate out = true) :
    main convertAudio stoi argv fs uninit = (0, fs.write out (wavFileBytes st.audioData t)) := by
  unfold main
  rw [if_neg (by omega)]
  simp only [hload, ht, hout, Bool.not_true, Bool.false_eq_true, if_false]
  unfold mainAfterLoad
  simp only [downsample_fallback st t hne hid, isEmpty_false_of_ne_nil _ hne, Bool.false_eq_true,
    if_false, saveAsWav, hcreate, Bool.not_true]

/-! ## The claims -/

/-- C1, as stated, fails: on the literal buffer `[1,-1,2,-2,3,-3,4,-4]` at rates 4 → 2 the result
is not `[1,-1,3,-3]`; frames are not kept whole. -/
theorem downsample_literal_not_whole_frames :
    (downsample ⟨[1, -1, 2, -2, 3, -3, 4, -4], 4, 2, ""⟩ 2).1 ≠ [1, -1, 3, -3] := by
  decide

/-- C1, amended: on the literal buffer `[1,-1,2,-2,3,-3,4,-4]` at rates 4 → 2 `downsample`
returns exactly `[1,2,3,4]`, the samples at the even positions 0, 2, 4, 6 of the interleaved
buffer (the left sample of each of the four frames). -/
theorem downsample_literal_result :
    (downsample ⟨[1, -1, 2, -2, 3, -3, 4, -4], 4, 2, ""⟩ 2).1 = [1, 2, 3, 4] ∧
    (downsample ⟨[1, -1, 2, -2, 3, -3, 4, -4], 4, 2, ""⟩ 2).1 =
      [0, 2, 4, 6].map (fun j => [1, -1, 2, -2, 3, -3, 4, -4].getD j 0) := by
  decide

/-- C2, as stated, fails: nine samples at rates 9 → 7 give six samples in binary64 arithmetic,
while `floor(9 * 7 / 9) = 7`; likewise 480 samples at 48000 → 44100 give 440, not 441. -/
theorem downsample_length_not_real_floor :
    (downsample ⟨[1, 2, 3, 4, 5, 6, 7, 8, 9], 9, 2, ""⟩ 7).1.length = 6 ∧
    [1, 2, 3, 4, 5, 6, 7, 8, 9].length * 7 / 9 = 7 ∧
    (downsample ⟨List.replicate 480 0, 48000, 2, ""⟩ 44100).1.length = 440 ∧
    (List.replicate 480 (0 : Int)).length * 44100 / 48000 = 441 := by
  refine ⟨by decide, by decide, ?_, by decide⟩
  rw [downsample_length _ _ (by decide) (by decide) (by decide)]
  decide

/-- C2, amended: for a non-empty buffer of at most `2^51` samples and rates with
`0 < target < rate < 2^32`, the returned length is `floor(len / ratio)` evaluated in binary64
(`ratio` the rounded quotient `rate / target`, the division rounded again); it differs from
`floor(len * target / rate)` by at most one, equals it whenever `target` divides `rate`, and the
result is empty exactly when `floor(len * target / rate) = 0`. -/
theorem downsample_length_binary64 (self : AudioDownsampler) (t : Nat)
    (hne : self.audioData ≠ []) (hlen : self.audioData.length ≤ 2 ^ 51)
    (ht0 : 0 < t) (htr : t < self.originalSampleRate) (hr : self.originalSampleRate < 2 ^ 32) :
    (downsample self t).1.length
      = newSizeOf self.audioData.length self.originalSampleRate t ∧
    (downsample self t).1.length ≤ self.audioData.length * t / self.originalSampleRate + 1 ∧
    self.audioData.length * t / self.originalSampleRate ≤ (downsample self t).1.length + 1 ∧
    (t ∣ self.originalSampleRate →
      (downsample self t).1.length = self.audioData.length * t / self.originalSampleRate) ∧
    ((downsample self t).1 = [] ↔ self.audioData.length * t / self.originalSampleRate = 0) := by
  have hL := downsample_length self t hne ht0 htr
  have hnear := newSizeOf_near self.audioData.length self.originalSampleRate t hlen
    (by omega) ht0 htr.le
  refine ⟨hL, ?_, ?_, ?_, ?_⟩
  · rw [hL]
    exact hnear.1
  · rw [hL]
    exact hnear.2
  · rintro ⟨k, hk⟩
    have hk' : self.originalSampleRate = k * t := by rw [hk, Nat.mul_comm]
    have hk0 : 0 < k := by
      rcases Nat.eq_zero_or_pos k with h | h
      · subst h
        omega
      · exact h
    rw [hL, hk', newSizeOf_exact _ k t (by omega) (by omega) hk0 ht0,
      Nat.mul_div_mul_right _ _ ht0]
  · rw [← List.length_eq_zero, hL,
      newSizeOf_eq_zero_iff _ _ t (by omega) (by omega) ht0 htr,
      Nat.div_eq_zero_iff (by omega)]

/-- Witness for C2: eight samples at rates 4 → 2. -/
theorem downsample_length_binary64_witness :
    (downsample ⟨[1, -1, 2, -2, 3, -3, 4, -4], 4, 2, ""⟩ 2).1.length = newSizeOf 8 4 2 ∧
    (downsample ⟨[1, -1, 2, -2, 3, -3, 4, -4], 4, 2, ""⟩ 2).1.length ≤ 8 * 2 / 4 + 1 ∧
    8 * 2 / 4 ≤ (downsample ⟨[1, -1, 2, -2, 3, -3, 4, -4], 4, 2, ""⟩ 2).1.length + 1 ∧
    (2 ∣ 4 → (downsample ⟨[1, -1, 2, -2, 3, -3, 4, -4], 4, 2, ""⟩ 2).1.length = 8 * 2 / 4) ∧
    ((downsample ⟨[1, -1, 2, -2, 3, -3, 4, -4], 4, 2, ""⟩ 2).1 = [] ↔ 8 * 2 / 4 = 0) :=
  downsample_length_binary64 ⟨[1, -1, 2, -2, 3, -3, 4, -4], 4, 2, ""⟩ 2 (by decide) (by decide)
    (by decide) (by decide) (by decide)

/-- C3, as stated, fails: with seventeen samples `0..16` at rates 15 → 11, output slot 11 holds
source sample 14, whereas `floor(11 * 15 / 11) = 15`. -/
theorem downsample_index_not_real_floor :
    11 < (downsample ⟨[0, 1, 2, 3, 4, 5, 6, 7, 8, 9, 10, 11, 12, 13, 14, 15, 16], 15, 2, ""⟩ 11).1.length ∧
    (downsample ⟨[0, 1, 2, 3, 4, 5, 6, 7, 8, 9, 10, 11, 12, 13, 14, 15, 16], 15, 2, ""⟩ 11).1[11]?
      = some 14 ∧
    [(0 : Int), 1, 2, 3, 4, 5, 6, 7, 8, 9, 10, 11, 12, 13, 14, 15, 16][11 * 15 / 11]? = some 15 := by
  decide

/-- C3, amended: for a non-empty buffer of at most `2^52` samples, rates with
`0 < target < rate < 2^32`, and every output index `i`, the source index computed in binary64,
`floor(i * ratio)`, is below `len(B)` and `output[i]` is the source sample at that index (so the
bounds guard never skips and no slot keeps its default); that index is `floor(i * rate / target)`
whenever `target` divides `rate`; and every output element is an element of `B`. -/
theorem downsample_copies_source (self : AudioDownsampler) (t i : Nat)
    (hne : self.audioData ≠ []) (hlen : self.audioData.length ≤ 2 ^ 52)
    (ht0 : 0 < t) (htr : t < self.originalSampleRate) (hr : self.originalSampleRate < 2 ^ 32)
    (hi : i < (downsample self t).1.length) :
    srcIndexOf i self.originalSampleRate t < self.audioData.length ∧
    (downsample self t).1[i]? = self.audioData[srcIndexOf i self.originalSampleRate t]? ∧
    (t ∣ self.originalSampleRate →
      srcIndexOf i self.originalSampleRate t = i * self.originalSampleRate / t) ∧
    (∀ x ∈ (downsample self t).1, x ∈ self.audioData) := by
  obtain ⟨h1, h2⟩ := downsample_getElem?_src self t hne hlen ht0 htr hr i hi
  refine ⟨h1, h2, ?_, ?_⟩
  · rintro ⟨k, hk⟩
    have hk' : self.originalSampleRate = k * t := by rw [hk, Nat.mul_comm]
    have hk0 : 0 < k := by
      rcases Nat.eq_zero_or_pos k with h | h
      · subst h
        omega
      · exact h
    rw [downsample_length self t hne ht0 htr, hk',
      newSizeOf_exact _ k t (by omega) (by omega) hk0 ht0] at hi
    have hik : i * k < self.audioData.length :=
      lt_of_lt_of_le (Nat.mul_lt_mul_of_pos_right hi hk0) (Nat.div_mul_le_self _ k)
    rw [hk', srcIndexOf_exact i k t (by omega) (by omega) hk0 ht0, ← Nat.mul_assoc,
      Nat.mul_div_cancel _ ht0]
  · intro x hx
    obtain ⟨j, hj⟩ := List.mem_iff_getElem?.1 hx
    have hjl : j < (downsample self t).1.length := by
      by_contra hc
      rw [List.getElem?_eq_none (by omega)] at hj
      exact absurd hj (by simp)
    obtain ⟨_, h4⟩ := downsample_getElem?_src self t hne hlen ht0 htr hr j hjl
    rw [h4] at hj
    exact List.getElem?_mem hj

/-- Witness for C3: slot 1 of the result for eight samples at rates 4 → 2. -/
theorem downsample_copies_source_witness :
    srcIndexOf 1 4 2 < 8 ∧
    (downsample ⟨[1, -1, 2, -2, 3, -3, 4, -4], 4, 2, ""⟩ 2).1[1]?
      = [(1 : Int), -1, 2, -2, 3, -3, 4, -4][srcIndexOf 1 4 2]? ∧
    (2 ∣ 4 → srcIndexOf 1 4 2 = 1 * 4 / 2) ∧
    (∀ x ∈ (downsample ⟨[1, -1, 2, -2, 3, -3, 4, -4], 4, 2, ""⟩ 2).1,
      x ∈ [(1 : Int), -1, 2, -2, 3, -3, 4, -4]) :=
  downsample_copies_source ⟨[1, -1, 2, -2, 3, -3, 4, -4], 4, 2, ""⟩ 2 1 (by decide) (by decide)
    (by decide) (by decide) (by decide) (by decide)

/-- C4: for a non-empty buffer, `downsample` with `target = 0` or `target ≥ rate` returns the
stored buffer itself and leaves the object state (buffer, original rate, channels) unchanged. -/
theorem downsample_identity_fallback (self : AudioDownsampler) (t : Nat)
    (hne : self.audioData ≠ []) (h : t = 0 ∨ t ≥ self.originalSampleRate) :
    (downsample self t).1 = self.audioData ∧
    (downsample self t).1.length = self.audioData.length ∧
    (∀ i : Nat, (downsample self t).1[i]? = self.audioData[i]?) ∧
    (downsample self t).2 = self ∧
    (downsample self t).2.audioData = self.audioData ∧
    (downsample self t).2.originalSampleRate = self.originalSampleRate := by
  rw [downsample_fallback self t hne h]
  exact ⟨rfl, rfl, fun _ => rfl, rfl, rfl, rfl⟩

/-- Witness for C4: target rate 0 and target rate equal to the original rate. -/
theorem downsample_identity_fallback_witness :
    ((downsample ⟨[5, -5, 6, -6], 44100, 2, ""⟩ 0).1 = [5, -5, 6, -6] ∧
      (downsample ⟨[5, -5, 6, -6], 44100, 2, ""⟩ 0).2.originalSampleRate = 44100) ∧
    (downsample ⟨[5, -5, 6, -6], 44100, 2, ""⟩ 44100).1 = [5, -5, 6, -6] :=
  ⟨⟨(downsample_identity_fallback ⟨[5, -5, 6, -6], 44100, 2, ""⟩ 0 (by decide)
      (Or.inl rfl)).1,
    (downsample_identity_fallback ⟨[5, -5, 6, -6], 44100, 2, ""⟩ 0 (by decide)
      (Or.inl rfl)).2.2.2.2.2⟩,
   (downsample_identity_fallback ⟨[5, -5, 6, -6], 44100, 2, ""⟩ 44100 (by decide)
      (Or.inr (by decide))).1⟩

/-- C5: for a non-empty buffer `D` and rate `s` with `36 + 2*len(D) < 2^32` and `4*s < 2^32`,
`saveAsWav` writes exactly the 44 header bytes ("RIFF", chunkSize `36 + dataSize`, "WAVE",
"fmt ", 16, format 1, 2 channels, sampleRate `s`, byteRate `s*2*2`, blockAlign 4, 16 bits,
"data", dataSize `2*len(D)`, integers little-endian) followed by the samples of `D` in order as
16-bit little-endian two's-complement values; for `s = 8000` and the six samples
`[100,-100,200,-200,300,-300]` that is 56 bytes with dataSize 12, chunkSize 48, byteRate 32000,
blockAlign 4. -/
theorem saveAsWav_layout (fs : FileSystem) (filename : String) (D : List Int) (s : Nat)
    (hne : D ≠ []) (hsz : 36 + 2 * D.length < 2 ^ 32) (hs : 4 * s < 2 ^ 32)
    (hc : fs.canCreate filename = true) :
    (saveAsWav fs filename D s).1 = true ∧
    (saveAsWav fs filename D s).2.content filename = some (wavFileBytes D s) ∧
    wavFileBytes D s =
      tagBytes ['R', 'I', 'F', 'F'] ++ le32 (36 + 2 * D.length) ++ tagBytes ['W', 'A', 'V', 'E'] ++
      tagBytes ['f', 'm', 't', ' '] ++ le32 16 ++ le16 1 ++ le16 2 ++ le32 s ++ le32 (s * 2 * 2) ++
      le16 4 ++ le16 16 ++ tagBytes ['d', 'a', 't', 'a'] ++ le32 (2 * D.length) ++
      D.flatMap (fun x => le16 (x % 65536).toNat) ∧
    (wavFileBytes D s).length = 44 + 2 * D.length ∧
    wavFileBytes [100, -100, 200, -200, 300, -300] 8000 =
      [82, 73, 70, 70, 48, 0, 0, 0, 87, 65, 86, 69, 102, 109, 116, 32, 16, 0, 0, 0, 1, 0, 2, 0,
        64, 31, 0, 0, 0, 125, 0, 0, 4, 0, 16, 0, 100, 97, 116, 97, 12, 0, 0, 0,
        100, 0, 156, 255, 200, 0, 56, 255, 44, 1, 212, 254] ∧
    (wavHeaderOf [100, -100, 200, -200, 300, -300] 8000).dataSize = 12 ∧
    (wavHeaderOf [100, -100, 200, -200, 300, -300] 8000).chunkSize = 48 ∧
    (wavHeaderOf [100, -100, 200, -200, 300, -300] 8000).byteRate = 32000 ∧
    (wavHeaderOf [100, -100, 200, -200, 300, -300] 8000).blockAlign = 4 ∧
    (wavFileBytes [100, -100, 200, -200, 300, -300] 8000).length = 56 := by
  have hsave : saveAsWav fs filename D s = (true, fs.write filename (wavFileBytes D s)) := by
    unfold saveAsWav
    simp only [isEmpty_false_of_ne_nil _ hne, Bool.false_eq_true, if_false, hc, Bool.not_true]
  refine ⟨by rw [hsave], ?_, wavFileBytes_eq D s hsz hs, (wavFileBytes_parts D s (by omega)).1,
    by decide, by decide, by decide, by decide, by decide, by decide⟩
  rw [hsave]
  simp only [FileSystem.write, if_true]

/-- Witness for C5: two samples at 44100 Hz written to a creatable path. -/
theorem saveAsWav_layout_witness :
    (saveAsWav ⟨fun _ => none, fun _ => true⟩ "o.wav" [1, -1] 44100).1 = true ∧
    (wavFileBytes [1, -1] 44100).length = 44 + 2 * 2 :=
  ⟨(saveAsWav_layout ⟨fun _ => none, fun _ => true⟩ "o.wav" [1, -1] 44100 (by decide)
      (by decide) (by decide) rfl).1,
   (saveAsWav_layout ⟨fun _ => none, fun _ => true⟩ "o.wav" [1, -1] 44100 (by decide)
      (by decide) (by decide) rfl).2.2.2.1⟩

/-- C6: round trip.  For a non-empty buffer `D` of `int16_t` samples with
`36 + 2*len(D) < 2^32` and any sample rate `s`, `loadWavFileFallback` on the file `saveAsWav`
wrote succeeds and leaves `audioData` equal to `D` (same count, same samples, same order). -/
theorem wav_roundtrip (self : AudioDownsampler) (fs : FileSystem) (filename : String)
    (uninit : Nat) (D : List Int) (s : Nat) (hne : D ≠ []) (hrange : InRange16 D)
    (hsz : 36 + 2 * D.length < 2 ^ 32) (hc : fs.canCreate filename = true) :
    (saveAsWav fs filename D s).1 = true ∧
    (loadWavFileFallback self (saveAsWav fs filename D s).2 filename uninit).1 = true ∧
    (loadWavFileFallback self (saveAsWav fs filename D s).2 filename uninit).2.audioData = D ∧
    (loadWavFileFallback self (saveAsWav fs filename D s).2 filename uninit).2.audioData.length
      = D.length := by
  have hsave : saveAsWav fs filename D s = (true, fs.write filename (wavFileBytes D s)) := by
    unfold saveAsWav
    simp only [isEmpty_false_of_ne_nil _ hne, Bool.false_eq_true, if_false, hc, Bool.not_true]
  have hfile : (fs.write filename (wavFileBytes D s)).content filename
      = some (wavFileBytes D s) := by
    simp only [FileSystem.write, if_true]
  rw [hsave, loadWavFileFallback_wavFileBytes self _ filename uninit D s hne hrange (by omega)
    hfile]
  exact ⟨rfl, rfl, rfl, rfl⟩

/-- Witness for C6: the six-sample buffer of the serializer scenario, at 8000 Hz. -/
theorem wav_roundtrip_witness :
    (loadWavFileFallback AudioDownsampler.new
      (saveAsWav ⟨fun _ => none, fun _ => true⟩ "o.wav" [100, -100, 200, -200, 300, -300] 8000).2
      "o.wav" 0).2.audioData = [100, -100, 200, -200, 300, -300] :=
  (wav_roundtrip AudioDownsampler.new ⟨fun _ => none, fun _ => true⟩ "o.wav" 0
    [100, -100, 200, -200, 300, -300] 8000 (by decide) (by decide) (by decide)
    rfl).2.2.1

/-- C7, as stated, fails: six samples (three whole stereo frames) at rates 4 → 2 give three
samples, an odd length. -/
theorem downsample_even_input_odd_output :
    [(1 : Int), -1, 2, -2, 3, -3].length % 2 = 0 ∧
    (downsample ⟨[1, -1, 2, -2, 3, -3], 4, 2, ""⟩ 2).1 = [1, 2, 3] ∧
    (downsample ⟨[1, -1, 2, -2, 3, -3], 4, 2, ""⟩ 2).1.length % 2 = 1 := by
  decide

/-- C7, amended: when the rate is an integer multiple `k` of the target (`0 < target < rate`),
and the buffer (non-empty, below `2^53` samples) holds a number of stereo frames that is a
multiple of `k`, i.e. `len = 2 * (k * j)`, the returned buffer has the even length `2 * j`. -/
theorem downsample_even_length (self : AudioDownsampler) (t k j : Nat)
    (hne : self.audioData ≠ []) (ht0 : 0 < t) (htr : t < self.originalSampleRate)
    (hr : self.originalSampleRate < 2 ^ 32) (hk : self.originalSampleRate = k * t)
    (hlen : self.audioData.length = 2 * (k * j)) (hl53 : self.audioData.length < 2 ^ 53) :
    (downsample self t).1.length = 2 * j ∧ (downsample self t).1.length % 2 = 0 := by
  have hk0 : 0 < k := by
    rcases Nat.eq_zero_or_pos k with h | h
    · subst h
      omega
    · exact h
  have hL : (downsample self t).1.length = 2 * j := by
    rw [downsample_length self t hne ht0 htr, hk,
      newSizeOf_exact _ k t hl53 (by omega) hk0 ht0, hlen]
    rw [show 2 * (k * j) = (2 * j) * k by ring, Nat.mul_div_cancel _ hk0]
  exact ⟨hL, by rw [hL]; omega⟩

/-- Witness for C7: eight samples (four frames) at rates 4 → 2, `k = 2`, `j = 2`. -/
theorem downsample_even_length_witness :
    (downsample ⟨[1, -1, 2, -2, 3, -3, 4, -4], 4, 2, ""⟩ 2).1.length = 2 * 2 ∧
    (downsample ⟨[1, -1, 2, -2, 3, -3, 4, -4], 4, 2, ""⟩ 2).1.length % 2 = 0 :=
  downsample_even_length ⟨[1, -1, 2, -2, 3, -3, 4, -4], 4, 2, ""⟩ 2 2 2 (by decide) (by decide)
    (by decide) (by decide) (by decide) (by decide) (by decide)

/-- C8: when the first four bytes of the file are not "RIFF", or bytes 8..11 are not "WAVE", or
bytes 36..39 are not "data" (a file too short to hold them included), `loadWavFileFallback`
returns `false` and the object state is exactly what it was. -/
theorem loadWavFileFallback_rejects (self : AudioDownsampler) (fs : FileSystem)
    (filename : String) (uninit : Nat) (fileBytes : List Nat)
    (hfile : fs.content filename = some fileBytes)
    (h : fileBytes.take 4 ≠ tagBytes ['R', 'I', 'F', 'F'] ∨
      (fileBytes.drop 8).take 4 ≠ tagBytes ['W', 'A', 'V', 'E'] ∨
      (fileBytes.drop 36).take 4 ≠ tagBytes ['d', 'a', 't', 'a']) :
    (loadWavFileFallback self fs filename uninit).1 = false ∧
    (loadWavFileFallback self fs filename uninit).2 = self := by
  rw [loadWavFileFallback_bad_tags self fs filename uninit fileBytes hfile h]
  exact ⟨rfl, rfl⟩

/-- Witness for C8: a file of three bytes, too short to hold "RIFF". -/
theorem loadWavFileFallback_rejects_witness :
    (loadWavFileFallback ⟨[9, -9], 8000, 2, "pcm"⟩ ⟨fun _ => some [82, 73, 70], fun _ => true⟩
      "in.wav" 0).1 = false ∧
    (loadWavFileFallback ⟨[9, -9], 8000, 2, "pcm"⟩ ⟨fun _ => some [82, 73, 70], fun _ => true⟩
      "in.wav" 0).2 = ⟨[9, -9], 8000, 2, "pcm"⟩ :=
  loadWavFileFallback_rejects ⟨[9, -9], 8000, 2, "pcm"⟩
    ⟨fun _ => some [82, 73, 70], fun _ => true⟩ "in.wav" 0 [82, 73, 70] rfl
    (Or.inl (by decide))

/-- C9: `saveAsWav` with an empty buffer returns `false` and leaves the file system exactly as
it was, for every path and sample rate: no file is created or overwritten. -/
theorem saveAsWav_empty (fs : FileSystem) (filename : String) (s : Nat) :
    (saveAsWav fs filename [] s).1 = false ∧ (saveAsWav fs filename [] s).2 = fs :=
  ⟨rfl, rfl⟩

/-- C10, as stated, fails: with a loaded buffer of `2^31` samples and target rate 0 (identity
fallback) the run exits with code 0, but the file holds only the 44 header bytes, while the
buffer is `2^32` bytes long: the payload is not all of `B`. -/
theorem main_identity_fallback_truncates :
    ∃ fs' : FileSystem,
      main (fun _ _ => (true, ⟨List.replicate 2147483648 0, 44100, 2, "pcm_s16le"⟩))
        (fun _ => 0) ["clisampler", "in.wav", "0"] ⟨fun _ => none, fun _ => true⟩ 0 = (0, fs') ∧
      (fs'.content "output.wav").map List.length = some 44 ∧
      (samplesBytes (List.replicate 2147483648 0)).length = 4294967296 := by
  have hne : List.replicate 2147483648 (0 : Int) ≠ [] := by
    intro h
    have h2 := congrArg List.length h
    rw [List.length_replicate] at h2
    exact absurd h2 (by decide)
  refine ⟨_, main_fallback_general _ _ _ _ 0
    ⟨List.replicate 2147483648 0, 44100, 2, "pcm_s16le"⟩ 0 "output.wav" (by decide) rfl hne rfl
    (Or.inl rfl) rfl rfl, ?_, ?_⟩
  · simp only [FileSystem.write, if_true, Option.map_some']
    rw [wavFileBytes_truncated _ _ (by rw [List.length_replicate]; decide)]
  · rw [samplesBytes_length, List.length_replicate]

/-- C10, amended: in `main`, when loading succeeded with a non-empty buffer `B` of fewer than
`2^31` samples (`2*len(B) < 2^32`), the requested target rate `t` is 0 or at least the original
rate, and the output file can be created, then `downsample` returns `B`, the run exits with
code 0, and the file written is the 44-byte header followed by all of `B`, with header
sampleRate `t` and byteRate `4*t mod 2^32`. -/
theorem main_identity_fallback
    (convertAudio : AudioDownsampler → String → Bool × AudioDownsampler) (stoi : String → Int)
    (argv : List String) (fs : FileSystem) (uninit : Nat) (st : AudioDownsampler)
    (t : Nat) (out : String) (hargc : 3 ≤ argv.length)
    (hload : loadAudioFile convertAudio AudioDownsampler.new fs (argv.getD 1 "") uninit = (true, st))
    (hne : st.audioData ≠ [])
    (ht : (stoi (argv.getD 2 "") % 2 ^ 32).toNat = t)
    (hid : t = 0 ∨ t ≥ st.originalSampleRate)
    (hout : (if argv.length ≥ 4 then argv.getD 3 "" else "output.wav") = out)
    (hcreate : fs.canCreate out = true)
    (hsz : 2 * st.audioData.length < 2 ^ 32) :
    (downsample st t).1 = st.audioData ∧
    (main convertAudio stoi argv fs uninit).1 = 0 ∧
    (main convertAudio stoi argv fs uninit).2.content out = some (wavFileBytes st.audioData t) ∧
    wavFileBytes st.audioData t = (wavHeaderOf st.audioData t).bytes ++ samplesBytes st.audioData ∧
    (wavHeaderOf st.audioData t).bytes.length = 44 ∧
    (wavHeaderOf st.audioData t).sampleRate = t ∧
    (wavHeaderOf st.audioData t).byteRate = 4 * t % 2 ^ 32 := by
  have hmain := main_fallback_general convertAudio stoi argv fs uninit st t out hargc hload hne
    ht hid hout hcreate
  have ht32 : t < 2 ^ 32 := by
    rw [← ht]
    omega
  have h1 : st.audioData.length * 2 % 2 ^ 32 = 2 * st.audioData.length := by
    rw [Nat.mod_eq_of_lt (by omega)]
    omega
  refine ⟨by rw [downsample_fallback st t hne hid], by rw [hmain], ?_, ?_,
    wavHeader_bytes_length _ rfl rfl rfl rfl, Nat.mod_eq_of_lt ht32, ?_⟩
  · rw [hmain]
    simp only [FileSystem.write, if_true]
  · unfold wavFileBytes
    simp only
    have e : (wavHeaderOf st.audioData t).dataSize = 2 * st.audioData.length := h1
    rw [e, List.take_of_length_le (by rw [samplesBytes_length])]
  · show t * (2 * 2 % 2 ^ 16) % 2 ^ 32 = 4 * t % 2 ^ 32
    have e : (2 * 2 % 2 ^ 16 : ℕ) = 4 := by norm_num
    rw [e, Nat.mul_comm]

/-- Witness for C10: a decoder that yields four samples at 8000 Hz and the command line
`clisampler in.wav 9000`. -/
theorem main_identity_fallback_witness :
    (main (fun _ _ => (true, ⟨[3, -3, 4, -4], 8000, 2, "pcm_s16le"⟩)) (fun _ => 9000)
      ["clisampler", "in.wav", "9000"] ⟨fun _ => none, fun _ => true⟩ 0).1 = 0 ∧
    (wavHeaderOf [3, -3, 4, -4] 9000).sampleRate = 9000 :=
  ⟨(main_identity_fallback (fun _ _ => (true, ⟨[3, -3, 4, -4], 8000, 2, "pcm_s16le"⟩))
      (fun _ => 9000) ["clisampler", "in.wav", "9000"] ⟨fun _ => none, fun _ => true⟩ 0
      ⟨[3, -3, 4, -4], 8000, 2, "pcm_s16le"⟩ 9000 "output.wav" (by decide) rfl (by decide) rfl
      (Or.inr (by decide)) rfl rfl (by decide)).2.1,
   (main_identity_fallback (fun _ _ => (true, ⟨[3, -3, 4, -4], 8000, 2, "pcm_s16le"⟩))
      (fun _ => 9000) ["clisampler", "in.wav", "9000"] ⟨fun _ => none, fun _ => true⟩ 0
      ⟨[3, -3, 4, -4], 8000, 2, "pcm_s16le"⟩ 9000 "output.wav" (by decide) rfl (by decide) rfl
      (Or.inr (by decide)) rfl rfl (by decide)).2.2.2.2.2.1⟩

end Clisampler
